import Mathlib

/-!
# gotp: one-time passwords (RFC 4226 / RFC 6238)

A shallow embedding of `otp.go`. Go byte slices and Go strings are byte
sequences and are both embedded as lists of naturals (one element per byte);
`int64` and `int` values are embedded as integers (`int` is taken to be 64 bits
wide). A run-time panic of the Go program is the value `none`.
-/

namespace Gotp

/-- A Go `[]byte` or `string`: a sequence of bytes. -/
abbrev Bytes := List Nat

/-- The bytes of an ASCII literal. -/
def ascii (s : String) : Bytes := s.toList.map Char.toNat

/-! ## Hash primitives of the Go standard library

`crypto/sha1`, `crypto/sha256`, `crypto/sha512` after FIPS 180-4 and
`crypto/hmac` after RFC 2104. -/

/-- Value of a byte sequence read as a big-endian number. -/
def beValue (bs : Bytes) : Nat := bs.foldl (fun acc b => acc * 256 + b) 0

/-- The first `n` big-endian words of `wb` bytes each. -/
def wordsBE (wb : Nat) : Nat → Bytes → List Nat
  | 0, _ => []
  | n + 1, bs => beValue (bs.take wb) :: wordsBE wb n (bs.drop wb)

/-- The `k` low-order bytes of `x`, most significant first. -/
def bytesBE (k x : Nat) : Bytes :=
  (List.range k).map fun i => (x >>> (8 * (k - 1 - i))) % 256

/-- Merkle–Damgård padding: a `0x80` byte, zero bytes up to a block boundary
less `lenBytes`, then the message length in bits on `lenBytes` bytes. -/
def mdPad (blockSize lenBytes : Nat) (msg : Bytes) : Bytes :=
  let k := (blockSize - (msg.length + 1 + lenBytes) % blockSize) % blockSize
  msg ++ 0x80 :: (List.replicate k 0 ++ bytesBE lenBytes (8 * msg.length))

/-- Rotate a `w`-bit word left by `n`. -/
def rotl (w x n : Nat) : Nat := ((x <<< n) ||| (x >>> (w - n))) % 2 ^ w

/-- Rotate a `w`-bit word right by `n`. -/
def rotr (w x n : Nat) : Nat := ((x >>> n) ||| (x <<< (w - n))) % 2 ^ w

/-- Five chaining words of SHA-1. -/
structure Sha1State where
  a : Nat
  b : Nat
  c : Nat
  d : Nat
  e : Nat

/-- Message schedule of SHA-1, newest word first; `n` words are appended. -/
def sha1Schedule : Nat → List Nat → List Nat
  | 0, ws => ws
  | n + 1, ws =>
    sha1Schedule n
      (rotl 32 (ws.getD 2 0 ^^^ ws.getD 7 0 ^^^ ws.getD 13 0 ^^^ ws.getD 15 0) 1 :: ws)

/-- Round function of SHA-1 at round `t`. -/
def sha1F (t b c d : Nat) : Nat :=
  if t < 20 then (b &&& c) ||| ((b ^^^ 0xFFFFFFFF) &&& d)
  else if t < 40 then b ^^^ c ^^^ d
  else if t < 60 then (b &&& c) ||| (b &&& d) ||| (c &&& d)
  else b ^^^ c ^^^ d

/-- Round constant of SHA-1 at round `t`. -/
def sha1K (t : Nat) : Nat :=
  if t < 20 then 0x5A827999
  else if t < 40 then 0x6ED9EBA1
  else if t < 60 then 0x8F1BBCDC
  else 0xCA62C1D6

/-- The rounds of SHA-1 over the schedule words, starting at round `t`. -/
def sha1Rounds : List Nat → Nat → Sha1State → Sha1State
  | [], _, s => s
  | w :: ws, t, s =>
    sha1Rounds ws (t + 1)
      { a := (rotl 32 s.a 5 + sha1F t s.b s.c s.d + s.e + sha1K t + w) % 2 ^ 32
        b := s.a
        c := rotl 32 s.b 30
        d := s.c
        e := s.d }

/-- Compression of one 64-byte block. -/
def sha1Block (h : Sha1State) (block : Bytes) : Sha1State :=
  let s := sha1Rounds (sha1Schedule 64 (wordsBE 4 16 block).reverse).reverse 0 h
  { a := (h.a + s.a) % 2 ^ 32
    b := (h.b + s.b) % 2 ^ 32
    c := (h.c + s.c) % 2 ^ 32
    d := (h.d + s.d) % 2 ^ 32
    e := (h.e + s.e) % 2 ^ 32 }

/-- Compression of `n` consecutive 64-byte blocks. -/
def sha1Blocks : Nat → Sha1State → Bytes → Sha1State
  | 0, h, _ => h
  | n + 1, h, bs => sha1Blocks n (sha1Block h (bs.take 64)) (bs.drop 64)

/-- SHA-1 digest (20 bytes). -/
def sha1Sum (msg : Bytes) : Bytes :=
  let p := mdPad 64 8 msg
  let h := sha1Blocks (p.length / 64)
    { a := 0x67452301, b := 0xEFCDAB89, c := 0x98BADCFE, d := 0x10325476, e := 0xC3D2E1F0 } p
  bytesBE 4 h.a ++ bytesBE 4 h.b ++ bytesBE 4 h.c ++ bytesBE 4 h.d ++ bytesBE 4 h.e

/-- Eight chaining words of SHA-2. -/
structure Sha2State where
  a : Nat
  b : Nat
  c : Nat
  d : Nat
  e : Nat
  f : Nat
  g : Nat
  h : Nat

/-- What distinguishes SHA-256 from SHA-512: word size, rotation amounts,
round constants and initial value. -/
structure Sha2Params where
  wordBits : Nat
  bigSigma0 : Nat × Nat × Nat
  bigSigma1 : Nat × Nat × Nat
  smallSigma0 : Nat × Nat × Nat
  smallSigma1 : Nat × Nat × Nat
  k : List Nat
  iv : Sha2State

/-- Σ functions: exclusive or of three rotations. -/
def sha2BigSigma (w : Nat) (r : Nat × Nat × Nat) (x : Nat) : Nat :=
  rotr w x r.1 ^^^ rotr w x r.2.1 ^^^ rotr w x r.2.2

/-- σ functions: exclusive or of two rotations and a shift. -/
def sha2SmallSigma (w : Nat) (r : Nat × Nat × Nat) (x : Nat) : Nat :=
  rotr w x r.1 ^^^ rotr w x r.2.1 ^^^ (x >>> r.2.2)

/-- Message schedule of SHA-2, newest word first; `n` words are appended. -/
def sha2Schedule (p : Sha2Params) : Nat → List Nat → List Nat
  | 0, ws => ws
  | n + 1, ws =>
    sha2Schedule p n
      ((sha2SmallSigma p.wordBits p.smallSigma1 (ws.getD 1 0) + ws.getD 6 0
        + sha2SmallSigma p.wordBits p.smallSigma0 (ws.getD 14 0) + ws.getD 15 0)
        % 2 ^ p.wordBits :: ws)

/-- The rounds of SHA-2 over paired round constants and schedule words. -/
def sha2Rounds (p : Sha2Params) : List (Nat × Nat) → Sha2State → Sha2State
  | [], s => s
  | (k, w) :: rest, s =>
    let ch := (s.e &&& s.f) ^^^ ((s.e ^^^ (2 ^ p.wordBits - 1)) &&& s.g)
    let maj := (s.a &&& s.b) ^^^ (s.a &&& s.c) ^^^ (s.b &&& s.c)
    let t1 := s.h + sha2BigSigma p.wordBits p.bigSigma1 s.e + ch + k + w
    let t2 := sha2BigSigma p.wordBits p.bigSigma0 s.a + maj
    sha2Rounds p rest
      { a := (t1 + t2) % 2 ^ p.wordBits
        b := s.a
        c := s.b
        d := s.c
        e := (s.d + t1) % 2 ^ p.wordBits
        f := s.e
        g := s.f
        h := s.g }

/-- Compression of one block of sixteen words. -/
def sha2Block (p : Sha2Params) (h : Sha2State) (block : Bytes) : Sha2State :=
  let w := (sha2Schedule p (p.k.length - 16) (wordsBE (p.wordBits / 8) 16 block).reverse).reverse
  let s := sha2Rounds p (p.k.zip w) h
  { a := (h.a + s.a) % 2 ^ p.wordBits
    b := (h.b + s.b) % 2 ^ p.wordBits
    c := (h.c + s.c) % 2 ^ p.wordBits
    d := (h.d + s.d) % 2 ^ p.wordBits
    e := (h.e + s.e) % 2 ^ p.wordBits
    f := (h.f + s.f) % 2 ^ p.wordBits
    g := (h.g + s.g) % 2 ^ p.wordBits
    h := (h.h + s.h) % 2 ^ p.wordBits }

/-- Compression of `n` consecutive blocks. -/
def sha2Blocks (p : Sha2Params) : Nat → Sha2State → Bytes → Sha2State
  | 0, h, _ => h
  | n + 1, h, bs =>
    sha2Blocks p n (sha2Block p h (bs.take (2 * p.wordBits))) (bs.drop (2 * p.wordBits))

/-- SHA-2 digest: the eight chaining words, big-endian. -/
def sha2Sum (p : Sha2Params) (msg : Bytes) : Bytes :=
  let m := mdPad (2 * p.wordBits) (p.wordBits / 4) msg
  let h := sha2Blocks p (m.length / (2 * p.wordBits)) p.iv m
  let n := p.wordBits / 8
  bytesBE n h.a ++ bytesBE n h.b ++ bytesBE n h.c ++ bytesBE n h.d
    ++ bytesBE n h.e ++ bytesBE n h.f ++ bytesBE n h.g ++ bytesBE n h.h

/-- Parameters of SHA-256. -/
def sha256Params : Sha2Params where
  wordBits := 32
  bigSigma0 := (2, 13, 22)
  bigSigma1 := (6, 11, 25)
  smallSigma0 := (7, 18, 3)
  smallSigma1 := (17, 19, 10)
  k := [
    0x428A2F98, 0x71374491, 0xB5C0FBCF, 0xE9B5DBA5, 0x3956C25B, 0x59F111F1, 0x923F82A4, 0xAB1C5ED5,
    0xD807AA98, 0x12835B01, 0x243185BE, 0x550C7DC3, 0x72BE5D74, 0x80DEB1FE, 0x9BDC06A7, 0xC19BF174,
    0xE49B69C1, 0xEFBE4786, 0x0FC19DC6, 0x240CA1CC, 0x2DE92C6F, 0x4A7484AA, 0x5CB0A9DC, 0x76F988DA,
    0x983E5152, 0xA831C66D, 0xB00327C8, 0xBF597FC7, 0xC6E00BF3, 0xD5A79147, 0x06CA6351, 0x14292967,
    0x27B70A85, 0x2E1B2138, 0x4D2C6DFC, 0x53380D13, 0x650A7354, 0x766A0ABB, 0x81C2C92E, 0x92722C85,
    0xA2BFE8A1, 0xA81A664B, 0xC24B8B70, 0xC76C51A3, 0xD192E819, 0xD6990624, 0xF40E3585, 0x106AA070,
    0x19A4C116, 0x1E376C08, 0x2748774C, 0x34B0BCB5, 0x391C0CB3, 0x4ED8AA4A, 0x5B9CCA4F, 0x682E6FF3,
    0x748F82EE, 0x78A5636F, 0x84C87814, 0x8CC70208, 0x90BEFFFA, 0xA4506CEB, 0xBEF9A3F7, 0xC67178F2]
  iv :=
    { a := 0x6A09E667, b := 0xBB67AE85, c := 0x3C6EF372, d := 0xA54FF53A
      e := 0x510E527F, f := 0x9B05688C, g := 0x1F83D9AB, h := 0x5BE0CD19 }

/-- Parameters of SHA-512. -/
def sha512Params : Sha2Params where
  wordBits := 64
  bigSigma0 := (28, 34, 39)
  bigSigma1 := (14, 18, 41)
  smallSigma0 := (1, 8, 7)
  smallSigma1 := (19, 61, 6)
  k := [
    0x428A2F98D728AE22, 0x7137449123EF65CD, 0xB5C0FBCFEC4D3B2F, 0xE9B5DBA58189DBBC,
    0x3956C25BF348B538, 0x59F111F1B605D019, 0x923F82A4AF194F9B, 0xAB1C5ED5DA6D8118,
    0xD807AA98A3030242, 0x12835B0145706FBE, 0x243185BE4EE4B28C, 0x550C7DC3D5FFB4E2,
    0x72BE5D74F27B896F, 0x80DEB1FE3B1696B1, 0x9BDC06A725C71235, 0xC19BF174CF692694,
    0xE49B69C19EF14AD2, 0xEFBE4786384F25E3, 0x0FC19DC68B8CD5B5, 0x240CA1CC77AC9C65,
    0x2DE92C6F592B0275, 0x4A7484AA6EA6E483, 0x5CB0A9DCBD41FBD4, 0x76F988DA831153B5,
    0x983E5152EE66DFAB, 0xA831C66D2DB43210, 0xB00327C898FB213F, 0xBF597FC7BEEF0EE4,
    0xC6E00BF33DA88FC2, 0xD5A79147930AA725, 0x06CA6351E003826F, 0x142929670A0E6E70,
    0x27B70A8546D22FFC, 0x2E1B21385C26C926, 0x4D2C6DFC5AC42AED, 0x53380D139D95B3DF,
    0x650A73548BAF63DE, 0x766A0ABB3C77B2A8, 0x81C2C92E47EDAEE6, 0x92722C851482353B,
    0xA2BFE8A14CF10364, 0xA81A664BBC423001, 0xC24B8B70D0F89791, 0xC76C51A30654BE30,
    0xD192E819D6EF5218, 0xD69906245565A910, 0xF40E35855771202A, 0x106AA07032BBD1B8,
    0x19A4C116B8D2D0C8, 0x1E376C085141AB53, 0x2748774CDF8EEB99, 0x34B0BCB5E19B48A8,
    0x391C0CB3C5C95A63, 0x4ED8AA4AE3418ACB, 0x5B9CCA4F7763E373, 0x682E6FF3D6B2B8A3,
    0x748F82EE5DEFB2FC, 0x78A5636F43172F60, 0x84C87814A1F0AB72, 0x8CC702081A6439EC,
    0x90BEFFFA23631E28, 0xA4506CEBDE82BDE9, 0xBEF9A3F7B2C67915, 0xC67178F2E372532B,
    0xCA273ECEEA26619C, 0xD186B8C721C0C207, 0xEADA7DD6CDE0EB1E, 0xF57D4F7FEE6ED178,
    0x06F067AA72176FBA, 0x0A637DC5A2C898A6, 0x113F9804BEF90DAE, 0x1B710B35131C471B,
    0x28DB77F523047D84, 0x32CAAB7B40C72493, 0x3C9EBE0A15C9BEBC, 0x431D67C49C100D4C,
    0x4CC5D4BECB3E42B6, 0x597F299CFC657E2A, 0x5FCB6FAB3AD6FAEC, 0x6C44198C4A475817]
  iv :=
    { a := 0x6A09E667F3BCC908, b := 0xBB67AE8584CAA73B, c := 0x3C6EF372FE94F82B
      d := 0xA54FF53A5F1D36F1, e := 0x510E527FADE682D1, f := 0x9B05688C2B3E6C1F
      g := 0x1F83D9ABFB41BD6B, h := 0x5BE0CD19137E2179 }

/-- The hash constructors `getHashFn` can return. -/
inductive HashFn where
  | sha1New
  | sha256New
  | sha512New
  deriving DecidableEq

/-- Block size in bytes (`hash.Hash.BlockSize`). -/
def HashFn.blockSize : HashFn → Nat
  | .sha1New => 64
  | .sha256New => 64
  | .sha512New => 128

/-- Digest size in bytes (`hash.Hash.Size`). -/
def HashFn.size : HashFn → Nat
  | .sha1New => 20
  | .sha256New => 32
  | .sha512New => 64

/-- Digest of a whole message. -/
def HashFn.sum : HashFn → Bytes → Bytes
  | .sha1New, msg => sha1Sum msg
  | .sha256New, msg => sha2Sum sha256Params msg
  | .sha512New, msg => sha2Sum sha512Params msg

/-- `hmac.New(h, key)` followed by `Write(msg)` and `Sum(nil)`: a key longer
than a block is hashed first, then zero-padded to a block; the digest is
`H(key ⊕ opad ‖ H(key ⊕ ipad ‖ msg))`. -/
def hmacSum (h : HashFn) (key msg : Bytes) : Bytes :=
  let k0 := if key.length > h.blockSize then h.sum key else key
  let k := k0 ++ List.replicate (h.blockSize - k0.length) 0
  h.sum (k.map (· ^^^ 0x5C) ++ h.sum (k.map (· ^^^ 0x36) ++ msg))

/-! ## Integer and formatting primitives of the Go language and library -/

/-- Two's-complement wrap-around of an integer into the `int64` range. -/
def wrapInt64 (x : Int) : Int := (x + 2 ^ 63) % 2 ^ 64 - 2 ^ 63

/-- Go `a / b` on `int64`: the quotient truncated toward zero; a zero divisor
panics; the one overflowing case (`MinInt64 / -1`) wraps around. -/
def divInt64 (a b : Int) : Option Int :=
  if b = 0 then none else some (wrapInt64 (Int.tdiv a b))

/-- Go `a % b` on `int`: the remainder of the truncated division; a zero
divisor panics. -/
def remInt (a b : Int) : Option Int :=
  if b = 0 then none else some (Int.tmod a b)

/-- Go `int(math.Pow10(int(n)))` with a 64-bit `int`. For `0 ≤ n ≤ 18` the
float64 is exactly `10^n` and fits; for `n < 0` the float64 lies in `[0, 1)` and
the conversion truncates it to `0`; for `n ≥ 19` the float64 (`+Inf` above 308)
is outside the range of `int` and the language leaves the converted value to the
implementation: it is the parameter `ovf` (`-2^63` on amd64, `2^63 - 1` on
arm64). -/
def pow10Int (ovf : Int) (n : Int) : Int :=
  if n < 0 then 0 else if n ≤ 18 then 10 ^ n.toNat else ovf

/-- Decimal digits of `n`, most significant first, pushed in front of `acc`. -/
def natDecAux : Nat → Nat → Bytes → Bytes
  | 0, _, acc => acc
  | fuel + 1, n, acc =>
    if n < 10 then (48 + n) :: acc else natDecAux fuel (n / 10) ((48 + n % 10) :: acc)

/-- Decimal rendering of a natural number (`strconv` style, no sign). -/
def natDec (n : Nat) : Bytes := natDecAux (n + 1) n []

/-- Decimal rendering of an integer: `fmt.Sprintf("%d", v)`. -/
def intDec (v : Int) : Bytes :=
  if v < 0 then 45 :: natDec v.natAbs else natDec v.natAbs

/-- The number a sequence of ASCII decimal digits denotes. -/
def decValue (s : Bytes) : Nat := s.foldl (fun acc c => acc * 10 + (c - 48)) 0

/-- The flag loop of `fmt`: `0` asks for zero padding unless `-` was seen, `-`
asks for left justification and cancels zero padding. Returns the flags
`(zero, minus)` and the rest of the directive. -/
def scanFlags : Bytes → Bool → Bool → Bool × Bool × Bytes
  | [], zero, minus => (zero, minus, [])
  | c :: rest, zero, minus =>
    if c = 48 then scanFlags rest (!minus) minus
    else if c = 45 then scanFlags rest false true
    else (zero, minus, c :: rest)

/-- The width scanner of `fmt` (`parsenum`): reads decimal digits; gives up,
consuming the whole format, as soon as the number read so far exceeds `10^6`
while digits remain. Returns `(num, isnum, rest)`. -/
def parsenum : Bytes → Nat → Bool → Nat × Bool × Bytes
  | [], num, isnum => (num, isnum, [])
  | c :: rest, num, isnum =>
    if 48 ≤ c ∧ c ≤ 57 then
      if num > 1000000 then (0, false, [])
      else parsenum rest (num * 10 + (c - 48)) true
    else (num, isnum, c :: rest)

/-- The verb `d` of `fmt` on an integer (`fmtInteger` in base 10, flags `0`
and `-` only, no precision): with zero padding the digits are padded with `0`
up to the width (one less under a sign); the result is then padded with
blanks to the width, on the right under `-`, on the left otherwise. It is
never cut. -/
def fmtInteger (zero minus widPresent : Bool) (wid : Nat) (v : Int) : Bytes :=
  let digs := natDec v.natAbs
  let prec := if zero && !minus && widPresent then (if v < 0 then wid - 1 else wid) else 0
  let body := (if v < 0 then [45] else []) ++ (List.replicate (prec - digs.length) 48 ++ digs)
  if !widPresent || wid == 0 then body
  else if minus then body ++ List.replicate (wid - body.length) 32
  else List.replicate (wid - body.length) 32 ++ body

/-- One directive of `fmt.Sprintf` applied to one `int` operand; `spec` is the
format after the `%`. Flags, then width, then the verb. A format that ends
before a verb prints `%!(NOVERB)` and reports the unused operand. Only the
verb `d` is rendered faithfully (the only one `generateOTP` builds); bytes
after the verb are copied. -/
def fmtDirective (spec : Bytes) (arg : Int) : Bytes :=
  let fl := scanFlags spec false false
  let wd := parsenum fl.2.2 0 false
  match wd.2.2 with
  | [] => ascii "%!(NOVERB)" ++ (ascii "%!(EXTRA int=" ++ (intDec arg ++ ascii ")"))
  | verb :: tail =>
    if verb = 100 then fmtInteger fl.1 fl.2.1 wd.2.1 wd.1 arg ++ tail
    else ascii "%!" ++ (verb :: (ascii "(int=" ++ (intDec arg ++ (ascii ")" ++ tail))))

/-- Go `fmt.Sprintf(format, arg)` with one `int` operand, for a format that
holds at most one directive: bytes before the first `%` are copied, the
directive is rendered by `fmtDirective`, an operand no directive used is
reported. -/
def sprintfInt : Bytes → Int → Bytes
  | [], arg => ascii "%!(EXTRA int=" ++ (intDec arg ++ ascii ")")
  | c :: rest, arg => if c = 37 then fmtDirective rest arg else c :: sprintfInt rest arg

/-- Go `fmt.Sprintf("%%0%dd", digits)`: the text `%0`, the decimal rendering of
`digits`, the text `d`. -/
def sprintfWidthFormat (digits : Int) : Bytes :=
  ascii "%0" ++ (intDec digits ++ ascii "d")

/-! ## otp.go -/

/-- Go `type Algorithm string`. -/
abbrev Algorithm := Bytes

/-- Constant `ALGORITHM_SHA1`. -/
def ALGORITHM_SHA1 : Algorithm := ascii "sha1"

/-- Constant `ALGORITHM_SHA256`. -/
def ALGORITHM_SHA256 : Algorithm := ascii "sha256"

/-- Constant `ALGORITHM_SHA512`. -/
def ALGORITHM_SHA512 : Algorithm := ascii "sha512"

/-- Constant `DEFAULT_DIGITS`. -/
def DEFAULT_DIGITS : Int := 6

/-- Constant `DEFAULT_PREIOD` (spelled as in the source). -/
def DEFAULT_PREIOD : Int := 30

/-- Constant `DEFAULT_COUNTER`. -/
def DEFAULT_COUNTER : Int := 0

/-- Constant `DEFAULT_LABEL`. -/
def DEFAULT_LABEL : Bytes := ascii "user"

/-- Constant `DEFAULT_ALGORITHM`. -/
def DEFAULT_ALGORITHM : Algorithm := ALGORITHM_SHA1

/-- Go `type common struct`. -/
structure common where
  secret : Bytes
  algorithm : Algorithm
  digits : Int
  period : Int
  counter : Int
  issuer : Bytes
  label : Bytes
  deriving DecidableEq

/-- The zero value `common{}`. -/
def common.zero : common :=
  { secret := [], algorithm := [], digits := 0, period := 0, counter := 0, issuer := [], label := [] }

/-- Method `(c *common) init()`: the receiver after the call. -/
def common.init (c : common) : common :=
  { c with
    algorithm := DEFAULT_ALGORITHM
    period := DEFAULT_PREIOD
    digits := DEFAULT_DIGITS
    counter := DEFAULT_COUNTER
    label := DEFAULT_LABEL }

/-- Go `type option = func(common *common)`: the effect on the pointed-to
configuration. -/
abbrev option := common → common

/-- Function `WithSecret`. -/
def WithSecret (secret : Bytes) : option := fun c => { c with secret := secret }

/-- Function `WithAlgorithm`. -/
def WithAlgorithm (algorithm : Algorithm) : option := fun c => { c with algorithm := algorithm }

/-- Function `WithDigits`. -/
def WithDigits (digits : Int) : option := fun c => { c with digits := digits }

/-- Function `WithPeriod`. -/
def WithPeriod (period : Int) : option := fun c => { c with period := period }

/-- Function `WithCounter`. -/
def WithCounter (counter : Int) : option := fun c => { c with counter := counter }

/-- Function `WithLabel`. -/
def WithLabel (label : Bytes) : option := fun c => { c with label := label }

/-- Function `WithIssuer`. -/
def WithIssuer (issuer : Bytes) : option := fun c => { c with issuer := issuer }

/-- Go `type totp struct { *common }`. -/
structure totp where
  common : common
  deriving DecidableEq

/-- Go `type hotp struct { *common }`. -/
structure hotp where
  common : common
  deriving DecidableEq

/-- Function `NewTOTP`: `init`, then every option in order. -/
def NewTOTP (options : List option) : totp :=
  { common := options.foldl (fun c opt => opt c) common.zero.init }

/-- Function `NewHOTP`: `init`, then every option in order. -/
def NewHOTP (options : List option) : hotp :=
  { common := options.foldl (fun c opt => opt c) common.zero.init }

/-- The loop of `I2b`: `n` passes of `byteArr[i] = byte(integer & 0xFF)`,
`integer = integer >> 8`, filling the array from its last index down. On
two's-complement integers `& 0xFF` is the residue modulo 256 and the arithmetic
shift `>> 8` is the floor of the quotient by 256. -/
def I2bLoop : Nat → Int → Bytes → Bytes
  | 0, _, byteArr => byteArr
  | n + 1, integer, byteArr => I2bLoop n (integer / 256) ((integer % 256).toNat :: byteArr)

/-- Function `I2b`. -/
def I2b (integer : Int) : Bytes := I2bLoop 8 integer []

/-- Function `getHashFn`. -/
def getHashFn (algorithm : Algorithm) : HashFn :=
  if algorithm = ALGORITHM_SHA256 then HashFn.sha256New
  else if algorithm = ALGORITHM_SHA512 then HashFn.sha512New
  else HashFn.sha1New

/-- The dynamic-truncation expression of `generateOTP`: the integer built from
`result[offset .. offset+3]`; an index outside `result` panics. -/
def truncate (result : Bytes) (offset : Nat) : Option Nat := do
  let r0 ← result[offset]?
  let r1 ← result[offset + 1]?
  let r2 ← result[offset + 2]?
  let r3 ← result[offset + 3]?
  pure (((r0 &&& 0x7F) <<< 24) ||| ((r1 &&& 0xFF) <<< 16) ||| ((r2 &&& 0xFF) <<< 8) ||| (r3 &&& 0xFF))

/-- Function `generateOTP`. `ovf` is what the platform converts an
out-of-range float64 to (see `pow10Int`). The result is `none` when the Go
function panics: an index out of range, or a zero modulus. -/
def generateOTP (ovf : Int) (secret : Bytes) (algorithm : Algorithm) (counter digits : Int) :
    Option Bytes := do
  let result := hmacSum (getHashFn algorithm) secret (I2b counter)
  let last ← result[result.length - 1]?
  let offset := last &&& 0xF
  let code ← truncate result offset
  let code ← remInt (code : Int) (pow10Int ovf digits)
  pure (sprintfInt (sprintfWidthFormat digits) code)

/-- Method `(t *totp) SignPassword`, the reading of `time.Now().Unix()` made the
explicit argument `now`. -/
def totp.SignPassword (ovf : Int) (t : totp) (now : Int) : Option Bytes := do
  let counter ← divInt64 now t.common.period
  generateOTP ovf t.common.secret t.common.algorithm counter t.common.digits

/-- Method `(h *hotp) SignPassword`. -/
def hotp.SignPassword (ovf : Int) (h : hotp) : Option Bytes :=
  generateOTP ovf h.common.secret h.common.algorithm h.common.counter h.common.digits

/-! ## Provisioning URI: `encoding/base32`, `net/url` and `signURL` -/

/-- The alphabet of `base32.StdEncoding` (RFC 4648). -/
def base32Alphabet : Bytes := ascii "ABCDEFGHIJKLMNOPQRSTUVWXYZ234567"

/-- The eight 5-bit groups of a 40-bit quantum. -/
def base32Quantum (b0 b1 b2 b3 b4 : Nat) : List Nat :=
  [b0 >>> 3, ((b0 &&& 7) <<< 2) ||| (b1 >>> 6), (b1 >>> 1) &&& 31,
   ((b1 &&& 1) <<< 4) ||| (b2 >>> 4), ((b2 &&& 15) <<< 1) ||| (b3 >>> 7), (b3 >>> 2) &&& 31,
   ((b3 &&& 3) <<< 3) ||| (b4 >>> 5), b4 &&& 31]

/-- The first `n` characters of an encoded quantum followed by `=` padding. -/
def base32Chars (n : Nat) (q : List Nat) : Bytes :=
  (q.take n).map (fun v => base32Alphabet.getD v 0) ++ List.replicate (8 - n) 61

/-- Go `base32.StdEncoding.EncodeToString`. -/
def base32Encode : Bytes → Bytes
  | [] => []
  | [b0] => base32Chars 2 (base32Quantum b0 0 0 0 0)
  | [b0, b1] => base32Chars 4 (base32Quantum b0 b1 0 0 0)
  | [b0, b1, b2] => base32Chars 5 (base32Quantum b0 b1 b2 0 0)
  | [b0, b1, b2, b3] => base32Chars 7 (base32Quantum b0 b1 b2 b3 0)
  | b0 :: b1 :: b2 :: b3 :: b4 :: rest =>
    base32Chars 8 (base32Quantum b0 b1 b2 b3 b4) ++ base32Encode rest

/-- The escaping modes of `net/url` that `signURL` reaches. -/
inductive encoding where
  | encodePath
  | encodePathSegment
  | encodeHost
  | encodeQueryComponent
  deriving DecidableEq

/-- ASCII letters and digits. -/
def isAlnum (c : Nat) : Bool :=
  (97 ≤ c && c ≤ 122) || (65 ≤ c && c ≤ 90) || (48 ≤ c && c ≤ 57)

/-- Function `shouldEscape` of `net/url`. Letters, digits and `-_.~` are never
escaped; host mode keeps some punctuation; of the reserved characters
`$&+,/:;=?@` path mode escapes only `?`, path-segment mode escapes `/;,?` and
query-component mode escapes all; everything else is escaped. -/
def shouldEscape (c : Nat) (mode : encoding) : Bool :=
  if isAlnum c then false
  else if mode = encoding.encodeHost ∧ c ∈ ascii "!$&\x27()*+,;=:[]<>\x22" then false
  else if c ∈ ascii "-_.~" then false
  else if c ∈ ascii "$&+,/:;=?@" then
    match mode with
    | encoding.encodePath => c = 63
    | encoding.encodePathSegment => c = 47 ∨ c = 59 ∨ c = 44 ∨ c = 63
    | encoding.encodeQueryComponent => true
    | encoding.encodeHost => true
  else true

/-- Upper-case hexadecimal digit. -/
def upperhex (n : Nat) : Nat := (ascii "0123456789ABCDEF").getD n 0

/-- Function `escape` of `net/url`: a byte that must be escaped becomes `+` when
it is a blank in query-component mode and `%XX` otherwise. -/
def escape (s : Bytes) (mode : encoding) : Bytes :=
  s.flatMap fun c =>
    if shouldEscape c mode then
      if c = 32 ∧ mode = encoding.encodeQueryComponent then [43]
      else [37, upperhex (c >>> 4), upperhex (c &&& 15)]
    else [c]

/-- Go `url.QueryEscape`. -/
def QueryEscape (s : Bytes) : Bytes := escape s encoding.encodeQueryComponent

/-- Go `url.PathEscape`. -/
def PathEscape (s : Bytes) : Bytes := escape s encoding.encodePathSegment

/-- Byte-wise lexicographic order of Go strings. -/
def bytesLt : Bytes → Bytes → Bool
  | _, [] => false
  | [], _ :: _ => true
  | a :: as, b :: bs => a < b || (a = b && bytesLt as bs)

/-- Go `url.Values`, every key holding one value (all `signURL` needs). -/
abbrev Values := List (Bytes × Bytes)

/-- Go `Values.Set`: replaces the value of a key, or adds the key. -/
def Values.Set : Values → Bytes → Bytes → Values
  | [], key, value => [(key, value)]
  | (k, v) :: rest, key, value =>
    if k = key then (k, value) :: rest else (k, v) :: Values.Set rest key value

/-- Insertion of a pair into a list sorted by key. -/
def insertByKey (kv : Bytes × Bytes) : Values → Values
  | [] => [kv]
  | x :: rest => if bytesLt kv.1 x.1 then kv :: x :: rest else x :: insertByKey kv rest

/-- The pairs sorted by key. -/
def sortByKey (v : Values) : Values := v.foldr insertByKey []

/-- Go `Values.Encode`: `key=value` pairs, both query-escaped, sorted by key
and joined with `&`. -/
def Values.Encode (v : Values) : Bytes :=
  (ascii "&").intercalate ((sortByKey v).map fun kv => QueryEscape kv.1 ++ (ascii "=" ++ QueryEscape kv.2))

/-- Go `url.URL`, the fields `signURL` sets; all others keep their zero
value. -/
structure URL where
  Scheme : Bytes
  Host : Bytes
  Path : Bytes
  RawQuery : Bytes

/-- Method `EscapedPath` with an empty `RawPath`: the path escaped in path
mode, except that the path `*` is kept. -/
def URL.EscapedPath (u : URL) : Bytes :=
  if u.Path = ascii "*" then ascii "*" else escape u.Path encoding.encodePath

/-- Method `(u *URL) String()` with no opaque part, user, fragment or forced
query: `scheme:`, then `//` and the escaped host, then the escaped path (after
a `/` when it does not start with one and there is a host), then `?` and the
raw query when there is one. -/
def URL.String (u : URL) : Bytes :=
  let scheme := if u.Scheme ≠ [] then u.Scheme ++ ascii ":" else []
  let authority :=
    if u.Scheme ≠ [] ∨ u.Host ≠ [] then
      (if u.Host ≠ [] ∨ u.Path ≠ [] then ascii "//" else [])
        ++ (if u.Host ≠ [] then escape u.Host encoding.encodeHost else [])
    else []
  let path := u.EscapedPath
  let slash := if path ≠ [] ∧ path.head? ≠ some 47 ∧ u.Host ≠ [] then ascii "/" else []
  let dot :=
    if scheme ++ authority ++ slash = [] ∧ 58 ∈ path.takeWhile (fun c => c ≠ 47) then ascii "./"
    else []
  let query := if u.RawQuery ≠ [] then ascii "?" ++ u.RawQuery else []
  scheme ++ authority ++ slash ++ dot ++ path ++ query

/-- Function `signURL`. -/
def signURL (secret : Bytes) (isHOTP : Bool) (issuer label : Bytes) (algorithm : Algorithm)
    (digits counter period : Int) : Bytes :=
  let query : Values := []
  let query := query.Set (ascii "secret") (base32Encode secret)
  let query := query.Set (ascii "algorithm") algorithm
  let query := query.Set (ascii "digits") (intDec digits)
  let query := if issuer ≠ [] then query.Set (ascii "issuer") issuer else query
  let host := if isHOTP then ascii "hotp" else ascii "totp"
  let query :=
    if isHOTP then query.Set (ascii "counter") (intDec counter)
    else query.Set (ascii "period") (intDec period)
  URL.String
    { Host := host
      Scheme := ascii "otpauth"
      RawQuery := query.Encode
      Path := PathEscape label }

/-- Method `(t *totp) SignURL`. -/
def totp.SignURL (t : totp) : Bytes :=
  signURL t.common.secret false t.common.issuer t.common.label t.common.algorithm
    t.common.digits 0 t.common.period

/-- Method `(h *hotp) SignURL`. -/
def hotp.SignURL (h : hotp) : Bytes :=
  signURL h.common.secret true h.common.issuer h.common.label h.common.algorithm
    h.common.digits h.common.counter 0

/-! ## Sequences of method calls and of option constructors -/

/-- The two methods of the interface `OTPCreator`. -/
inductive Call where
  | SignPassword
  | SignURL
  deriving DecidableEq

/-- What a method call returns: a code (or a panic) from `SignPassword`, a URI
from `SignURL`. -/
inductive Reply where
  | password (code : Option Bytes)
  | url (uri : Bytes)
  deriving DecidableEq

/-- One method call on an HOTP generator: the reply and the generator after
the call. Both methods have a pointer receiver; neither assigns through it. -/
def hotp.call (ovf : Int) (h : hotp) : Call → Reply × hotp
  | Call.SignPassword => (Reply.password (hotp.SignPassword ovf h), h)
  | Call.SignURL => (Reply.url (hotp.SignURL h), h)

/-- Successive method calls on one HOTP generator: the replies in order and
the generator after the last call. -/
def hotp.run (ovf : Int) : hotp → List Call → List Reply × hotp
  | h, [] => ([], h)
  | h, c :: cs =>
    let r := hotp.call ovf h c
    let rs := hotp.run ovf r.2 cs
    (r.1 :: rs.1, rs.2)

/-- A call of one of the seven exported option constructors. -/
inductive OptionCall where
  | secret (v : Bytes)
  | algorithm (v : Algorithm)
  | digits (v : Int)
  | period (v : Int)
  | counter (v : Int)
  | label (v : Bytes)
  | issuer (v : Bytes)
  deriving DecidableEq

/-- The option a constructor call returns. -/
def OptionCall.toOption : OptionCall → option
  | OptionCall.secret v => WithSecret v
  | OptionCall.algorithm v => WithAlgorithm v
  | OptionCall.digits v => WithDigits v
  | OptionCall.period v => WithPeriod v
  | OptionCall.counter v => WithCounter v
  | OptionCall.label v => WithLabel v
  | OptionCall.issuer v => WithIssuer v

/-- The value carried by the last element of the sequence that `sel`
recognises, or `dflt` when there is none. -/
def lastSet {α : Type} (sel : OptionCall → Option α) (dflt : α) (calls : List OptionCall) : α :=
  (calls.reverse.findSome? sel).getD dflt

/-- The secret an option call sets, if it sets it. -/
def OptionCall.secret? : OptionCall → Option Bytes
  | OptionCall.secret v => some v
  | _ => none

/-- The algorithm an option call sets, if it sets it. -/
def OptionCall.algorithm? : OptionCall → Option Algorithm
  | OptionCall.algorithm v => some v
  | _ => none

/-- The digit count an option call sets, if it sets it. -/
def OptionCall.digits? : OptionCall → Option Int
  | OptionCall.digits v => some v
  | _ => none

/-- The period an option call sets, if it sets it. -/
def OptionCall.period? : OptionCall → Option Int
  | OptionCall.period v => some v
  | _ => none

/-- The counter an option call sets, if it sets it. -/
def OptionCall.counter? : OptionCall → Option Int
  | OptionCall.counter v => some v
  | _ => none

/-- The label an option call sets, if it sets it. -/
def OptionCall.label? : OptionCall → Option Bytes
  | OptionCall.label v => some v
  | _ => none

/-- The issuer an option call sets, if it sets it. -/
def OptionCall.issuer? : OptionCall → Option Bytes
  | OptionCall.issuer v => some v
  | _ => none

/-! ## The specification's description of the code generator -/

/-- Dynamic truncation as RFC 4226 and the specification word it: the offset
is the last byte of the MAC AND `0x0F`; the result is the big-endian 32-bit
value of the four bytes `mac[offset .. offset+3]` with its top bit cleared,
that is, reduced modulo `2^31`. -/
def specTruncation (mac : Bytes) : Nat :=
  let offset := mac.getLastD 0 &&& 0x0F
  beValue ((mac.drop offset).take 4) % 2 ^ 31

/-- The keyed-hash primitive the specification assigns to an algorithm value:
SHA-1, SHA-256 and SHA-512 for the lowercase names `sha1`, `sha256` and
`sha512`, and the default primitive SHA-1 for every other value. -/
def specHash (algorithm : Algorithm) : HashFn :=
  if algorithm = ascii "sha1" then HashFn.sha1New
  else if algorithm = ascii "sha256" then HashFn.sha256New
  else if algorithm = ascii "sha512" then HashFn.sha512New
  else HashFn.sha1New

/-- The specification's MAC: HMAC under the primitive of the algorithm, keyed
by the secret, of the counter as an 8-byte big-endian unsigned integer. -/
def specMac (secret : Bytes) (algorithm : Algorithm) (counter : Int) : Bytes :=
  hmacSum (specHash algorithm) secret (bytesBE 8 (counter % 2 ^ 64).toNat)

/-- Left padding with the character `0` up to `width` characters. -/
def zeroPad (width : Nat) (s : Bytes) : Bytes := List.replicate (width - s.length) 48 ++ s

/-! ## Reading a provisioning URI back

What a client does with the URI: `url.Parse` and `URL.Query` of `net/url`,
`base32.StdEncoding.DecodeString` and `strconv.ParseInt`, after their
documentation (RFC 3986, RFC 4648). -/

/-- Every element of the sequence is a byte. -/
def isBytes (s : Bytes) : Prop := ∀ b ∈ s, b < 256

/-- The value is an `int64`. -/
def isInt64 (v : Int) : Prop := -2 ^ 63 ≤ v ∧ v < 2 ^ 63

/-- A configuration a Go program can hold: the strings are byte sequences and
the integers are `int64` values. -/
def common.wellTyped (c : common) : Prop :=
  isBytes c.secret ∧ isBytes c.algorithm ∧ isBytes c.issuer ∧ isBytes c.label
    ∧ isInt64 c.digits ∧ isInt64 c.period ∧ isInt64 c.counter

/-- Go `strings.Cut(s, sep)` for a one-byte separator: the text before and the
text after the first `sep`; all of `s` and the empty text when there is
none. -/
def cut (sep : Nat) : Bytes → Bytes × Bytes
  | [] => ([], [])
  | c :: rest =>
    if c = sep then ([], rest)
    else ((c :: (cut sep rest).1), (cut sep rest).2)

/-- The pieces of `s` between the occurrences of `sep`. -/
def splitOn (sep : Nat) : Bytes → List Bytes
  | [] => [[]]
  | c :: rest =>
    if c = sep then [] :: splitOn sep rest
    else
      match splitOn sep rest with
      | [] => [[c]]
      | piece :: pieces => (c :: piece) :: pieces

/-- Function `ishex` of `net/url`. -/
def ishex (c : Nat) : Bool :=
  (48 ≤ c && c ≤ 57) || (97 ≤ c && c ≤ 102) || (65 ≤ c && c ≤ 70)

/-- Function `unhex` of `net/url`. -/
def unhex (c : Nat) : Nat :=
  if 48 ≤ c ∧ c ≤ 57 then c - 48
  else if 97 ≤ c ∧ c ≤ 102 then c - 97 + 10
  else if 65 ≤ c ∧ c ≤ 70 then c - 65 + 10
  else 0

/-- Function `unescape` of `net/url` in query-component mode (`plusIsSpace`)
and in path-segment mode: `%XX` becomes the byte `XX`, a `%` not followed by
two hexadecimal digits is an error, and `+` becomes a blank in
query-component mode only. -/
def unescape (plusIsSpace : Bool) : Bytes → Option Bytes
  | [] => some []
  | c :: rest =>
    if c = 37 then
      match rest with
      | a :: b :: rest2 =>
        if ishex a && ishex b then
          (unescape plusIsSpace rest2).map fun s => (unhex a * 16 + unhex b) :: s
        else none
      | _ => none
    else if c = 43 ∧ plusIsSpace = true then
      (unescape plusIsSpace rest).map fun s => 32 :: s
    else (unescape plusIsSpace rest).map fun s => c :: s

/-- Go `url.QueryUnescape`. -/
def QueryUnescape (s : Bytes) : Option Bytes := unescape true s

/-- Go `url.PathUnescape`. -/
def PathUnescape (s : Bytes) : Option Bytes := unescape false s

/-- One `key=value` setting of a query: `none` when `ParseQuery` skips it (it
is empty, holds a semicolon, or does not unescape). -/
def parsePair (setting : Bytes) : Option (Bytes × Bytes) :=
  if 59 ∈ setting then none
  else if setting = [] then none
  else
    match QueryUnescape (cut 61 setting).1, QueryUnescape (cut 61 setting).2 with
    | some key, some value => some (key, value)
    | _, _ => none

/-- Go `url.ParseQuery`, errors dropped as `URL.Query` drops them: the
settings between `&`, each cut at its first `=` and unescaped, in order. -/
def ParseQuery (query : Bytes) : List (Bytes × Bytes) :=
  (splitOn 38 query).filterMap parsePair

/-- Go `v[key]` on parsed values: all values of a key, in order. -/
def valuesOf (v : List (Bytes × Bytes)) (key : Bytes) : List Bytes :=
  (v.filter fun kv => kv.1 = key).map fun kv => kv.2

/-- The `RawQuery` that `url.Parse` finds: the fragment after the first `#` is
set aside, the query is the text after the first `?` of what is left. -/
def rawQueryOf (uri : Bytes) : Bytes := (cut 63 (cut 35 uri).1).2

/-- The query parameters a client reads from a URI: `url.Parse`, then
`URL.Query`. -/
def queryOf (uri : Bytes) : List (Bytes × Bytes) := ParseQuery (rawQueryOf uri)

/-- The 5-bit value of a character of the base32 alphabet. -/
def base32Index (c : Nat) : Option Nat :=
  if 65 ≤ c ∧ c ≤ 90 then some (c - 65)
  else if 50 ≤ c ∧ c ≤ 55 then some (c - 50 + 26)
  else none

/-- The 5-bit values of a run of alphabet characters; `none` when one of them
is not in the alphabet. -/
def base32Indices : Bytes → Option (List Nat)
  | [] => some []
  | c :: cs =>
    match base32Index c, base32Indices cs with
    | some v, some vs => some (v :: vs)
    | _, _ => none

/-- One quantum of eight base32 characters decoded: the characters before the
`=` padding must be 2, 4, 5, 7 or 8 alphabet characters and give 1, 2, 3, 4 or
5 bytes, the leading bytes of the 40-bit number they spell. -/
def base32DecodeQuantum (cs : Bytes) : Option Bytes :=
  let data := cs.takeWhile fun c => c ≠ 61
  let padding := cs.dropWhile fun c => c ≠ 61
  if (padding.all fun c => c = 61) ∧ data.length ∈ [2, 4, 5, 7, 8] then
    (base32Indices data).map fun vals =>
      (bytesBE 5 ((vals ++ List.replicate (8 - vals.length) 0).foldl
        (fun acc v => acc * 32 + v) 0)).take (vals.length * 5 / 8)
  else none

/-- Go `base32.StdEncoding.DecodeString` on text without line breaks: quanta of
eight characters, padding allowed in the last one only. -/
def base32Decode : Bytes → Option Bytes
  | [] => some []
  | c0 :: c1 :: c2 :: c3 :: c4 :: c5 :: c6 :: c7 :: rest =>
    match base32DecodeQuantum [c0, c1, c2, c3, c4, c5, c6, c7] with
    | none => none
    | some q =>
      if q.length < 5 ∧ rest ≠ [] then none
      else (base32Decode rest).map fun tl => q ++ tl
  | _ => none

/-- Go `strconv.ParseInt(s, 10, 64)`: an optional sign, then one or more
decimal digits; `none` on a syntax error or a value out of range. -/
def ParseInt (s : Bytes) : Option Int :=
  let body := if s.head? = some 45 ∨ s.head? = some 43 then s.tail else s
  if body = [] ∨ ¬ (body.all fun c => 48 ≤ c ∧ c ≤ 57) then none
  else
    let v : Int := if s.head? = some 45 then -(decValue body : Int) else (decValue body : Int)
    if -2 ^ 63 ≤ v ∧ v < 2 ^ 63 then some v else none

/-- The settings of a provisioning URI in the order they stand in the query,
which is the order of their keys: `algorithm`, `counter` (HOTP), `digits`,
`issuer` (when not empty), `period` (TOTP), `secret`. -/
def querySettings (secret : Bytes) (isHOTP : Bool) (issuer : Bytes) (algorithm : Algorithm)
    (digits counter period : Int) : List (Bytes × Bytes) :=
  [(ascii "algorithm", algorithm)]
    ++ (if isHOTP then [(ascii "counter", intDec counter)] else [])
    ++ [(ascii "digits", intDec digits)]
    ++ (if issuer ≠ [] then [(ascii "issuer", issuer)] else [])
    ++ (if isHOTP then [] else [(ascii "period", intDec period)])
    ++ [(ascii "secret", base32Encode secret)]

/-! ## Lemmas on the library primitives -/
theorem bytesBE_length (k x : Nat) : (bytesBE k x).length = k := by
  simp [bytesBE]

theorem bytesBE_lt (k x : Nat) : ∀ b ∈ bytesBE k x, b < 256 := by
  intro b hb
  simp only [bytesBE, List.mem_map] at hb
  obtain ⟨i, _, rfl⟩ := hb
  exact Nat.mod_lt _ (by decide)

theorem HashFn.sum_length (h : HashFn) (msg : Bytes) : (h.sum msg).length = h.size := by
  cases h <;> simp [HashFn.sum, HashFn.size, sha1Sum, sha2Sum, bytesBE_length, sha256Params, sha512Params]

theorem HashFn.sum_lt (h : HashFn) (msg : Bytes) : ∀ b ∈ h.sum msg, b < 256 := by
  intro b hb
  cases h
  · simp only [HashFn.sum, sha1Sum, List.mem_append] at hb
    rcases hb with (((hb | hb) | hb) | hb) | hb <;> exact bytesBE_lt _ _ b hb
  · simp only [HashFn.sum, sha2Sum, List.mem_append] at hb
    rcases hb with ((((((hb | hb) | hb) | hb) | hb) | hb) | hb) | hb <;> exact bytesBE_lt _ _ b hb
  · simp only [HashFn.sum, sha2Sum, List.mem_append] at hb
    rcases hb with ((((((hb | hb) | hb) | hb) | hb) | hb) | hb) | hb <;> exact bytesBE_lt _ _ b hb

theorem hmacSum_length (h : HashFn) (key msg : Bytes) : (hmacSum h key msg).length = h.size := by
  simp [hmacSum, HashFn.sum_length]

theorem hmacSum_lt (h : HashFn) (key msg : Bytes) : ∀ b ∈ hmacSum h key msg, b < 256 := by
  intro b hb
  exact HashFn.sum_lt h _ b hb

theorem HashFn.size_ge (h : HashFn) : 20 ≤ h.size := by
  cases h <;> decide

theorem natDecAux_eq (n : Nat) : ∀ fuel acc, n < fuel → natDecAux fuel n acc = natDec n ++ acc := by
  induction n using Nat.strong_induction_on with
  | _ n ih =>
    intro fuel acc hf
    cases fuel with
    | zero => omega
    | succ f =>
      by_cases h : n < 10
      · simp [natDec, natDecAux, h]
      · have hlt : n / 10 < n := by omega
        have hf2 : n / 10 < f := by omega
        simp only [natDec, natDecAux, h, if_false]
        rw [ih (n / 10) hlt f _ hf2, ih (n / 10) hlt n _ hlt]
        simp

theorem natDec_lt_ten (n : Nat) (h : n < 10) : natDec n = [48 + n] := by
  simp [natDec, natDecAux, h]

theorem natDec_step (n : Nat) (h : 10 ≤ n) : natDec n = natDec (n / 10) ++ [48 + n % 10] := by
  have h2 : ¬ n < 10 := by omega
  have hlt : n / 10 < n := by omega
  conv_lhs => rw [natDec]
  simp only [natDecAux, h2, if_false]
  exact natDecAux_eq (n / 10) n _ hlt

theorem decValue_append (s : Bytes) (c : Nat) : decValue (s ++ [c]) = decValue s * 10 + (c - 48) := by
  simp [decValue, List.foldl_append]

theorem decValue_natDec (n : Nat) : decValue (natDec n) = n := by
  induction n using Nat.strong_induction_on with
  | _ n ih =>
    by_cases h : n < 10
    · rw [natDec_lt_ten n h]; simp [decValue]
    · rw [natDec_step n (by omega), decValue_append, ih (n / 10) (by omega)]
      omega

theorem decValue_zeros (k : Nat) (s : Bytes) : decValue (List.replicate k 48 ++ s) = decValue s := by
  induction k with
  | zero => simp
  | succ k ih =>
    simp only [List.replicate_succ, List.cons_append]
    simp only [decValue, List.foldl_cons] at ih ⊢
    simpa using ih

theorem natDec_digit (n : Nat) : ∀ c ∈ natDec n, 48 ≤ c ∧ c ≤ 57 := by
  induction n using Nat.strong_induction_on with
  | _ n ih =>
    intro c hc
    by_cases h : n < 10
    · rw [natDec_lt_ten n h] at hc
      simp at hc
      omega
    · rw [natDec_step n (by omega)] at hc
      simp only [List.mem_append, List.mem_singleton] at hc
      rcases hc with hc | hc
      · exact ih (n / 10) (by omega) c hc
      · omega

theorem natDec_length_le (k : Nat) : ∀ n, n < 10 ^ (k + 1) → (natDec n).length ≤ k + 1 := by
  induction k with
  | zero =>
    intro n hn
    rw [natDec_lt_ten n (by simpa using hn)]
    simp
  | succ k ih =>
    intro n hn
    by_cases h : n < 10
    · rw [natDec_lt_ten n h]; simp
    · rw [natDec_step n (by omega)]
      have : n / 10 < 10 ^ (k + 1) := by
        rw [Nat.div_lt_iff_lt_mul (by decide)]
        rw [pow_succ] at hn
        exact hn
      have := ih (n / 10) this
      simp
      omega

theorem natDec_head (n : Nat) (h1 : 1 ≤ n) :
    ∃ c tl, natDec n = c :: tl ∧ 49 ≤ c ∧ c ≤ 57 := by
  induction n using Nat.strong_induction_on with
  | _ n ih =>
    by_cases h : n < 10
    · exact ⟨48 + n, [], natDec_lt_ten n h, by omega, by omega⟩
    · obtain ⟨c, tl, hc, h49, h57⟩ := ih (n / 10) (by omega) (by omega)
      refine ⟨c, tl ++ [48 + n % 10], ?_, h49, h57⟩
      rw [natDec_step n (by omega), hc]
      simp

theorem natDec_length_pos (n : Nat) : 1 ≤ (natDec n).length := by
  by_cases h : n < 10
  · rw [natDec_lt_ten n h]; simp
  · rw [natDec_step n (by omega)]; simp

theorem parsenum_natDec (n : Nat) :
    ∀ rest, n / 10 ≤ 1000000 → parsenum (natDec n ++ rest) 0 false = parsenum rest n true := by
  induction n using Nat.strong_induction_on with
  | _ n ih =>
    intro rest hn
    by_cases h : n < 10
    · rw [natDec_lt_ten n h]
      have h1 : 48 + n ≤ 57 := by omega
      simp [parsenum, h1]
    · rw [natDec_step n (by omega), List.append_assoc, ih (n / 10) (by omega) _ (by omega)]
      have h1 : 48 + n % 10 ≤ 57 := by omega
      have h2 : ¬ (n / 10 > 1000000) := by omega
      have h3 : n / 10 * 10 + n % 10 = n := by omega
      simp [parsenum, h1, h2, h3]

theorem parsenum_natDec_tooLarge (n : Nat) :
    ∀ rest, 1000000 < n / 10 → parsenum (natDec n ++ rest) 0 false = (0, false, []) := by
  induction n using Nat.strong_induction_on with
  | _ n ih =>
    intro rest hn
    have h10 : 10 ≤ n := by omega
    rw [natDec_step n h10, List.append_assoc]
    by_cases hbig : 1000000 < n / 10 / 10
    · exact ih (n / 10) (by omega) _ hbig
    · rw [parsenum_natDec (n / 10) _ (by omega)]
      have h1 : 48 + n % 10 ≤ 57 := by omega
      simp [parsenum, h1, hn]

theorem I2b_eq (c : Int) : I2b c = bytesBE 8 (c % 2 ^ 64).toNat := by
  simp only [I2b, I2bLoop, bytesBE, List.range, List.range.loop, List.map, Nat.shiftRight_eq_div_pow]
  simp
  omega

theorem or_shift_eq (a b c d : Nat) (hb : b < 256) (hc : c < 256) (hd : d < 256) :
    ((a <<< 24) ||| (b <<< 16) ||| (c <<< 8) ||| d) = a * 2 ^ 24 + b * 2 ^ 16 + c * 2 ^ 8 + d := by
  have h1 : (c <<< 8) ||| d = c * 2 ^ 8 + d := by
    rw [Nat.shiftLeft_eq, Nat.mul_comm c, ← Nat.mul_add_lt_is_or (by omega) c]
  have h2 : (b <<< 16) ||| (c * 2 ^ 8 + d) = b * 2 ^ 16 + (c * 2 ^ 8 + d) := by
    rw [Nat.shiftLeft_eq, Nat.mul_comm b, ← Nat.mul_add_lt_is_or (by omega) b]
  have h3 : (a <<< 24) ||| (b * 2 ^ 16 + (c * 2 ^ 8 + d)) = a * 2 ^ 24 + (b * 2 ^ 16 + (c * 2 ^ 8 + d)) := by
    rw [Nat.shiftLeft_eq, Nat.mul_comm a, ← Nat.mul_add_lt_is_or (by omega) a]
  rw [Nat.lor_assoc, Nat.lor_assoc, h1, h2, h3]
  omega

theorem and_7f (r : Nat) : r &&& 0x7F = r % 128 := Nat.and_pow_two_sub_one_eq_mod r 7

theorem and_ff (r : Nat) : r &&& 0xFF = r % 256 := Nat.and_pow_two_sub_one_eq_mod r 8

theorem and_f (r : Nat) : r &&& 0xF = r % 16 := Nat.and_pow_two_sub_one_eq_mod r 4

/-- The truncation expression of the code on a MAC of at least 19 bytes at an
offset of at most 15. -/
theorem truncate_eq (mac : Bytes) (hlen : 19 ≤ mac.length) (hb : ∀ b ∈ mac, b < 256)
    (off : Nat) (hoff : off ≤ 15) :
    truncate mac off = some (beValue ((mac.drop off).take 4) % 2 ^ 31) := by
  have h0 : off < mac.length := by omega
  have h1 : off + 1 < mac.length := by omega
  have h2 : off + 2 < mac.length := by omega
  have h3 : off + 3 < mac.length := by omega
  have b0 : mac[off] < 256 := hb _ (List.getElem_mem _)
  have b1 : mac[off + 1] < 256 := hb _ (List.getElem_mem _)
  have b2 : mac[off + 2] < 256 := hb _ (List.getElem_mem _)
  have b3 : mac[off + 3] < 256 := hb _ (List.getElem_mem _)
  have hd : (mac.drop off).take 4 = [mac[off], mac[off + 1], mac[off + 2], mac[off + 3]] := by
    rw [List.drop_eq_getElem_cons h0, List.drop_eq_getElem_cons h1,
      List.drop_eq_getElem_cons h2, List.drop_eq_getElem_cons h3]
    rfl
  rw [hd]
  simp only [truncate, List.getElem?_eq_getElem h0, List.getElem?_eq_getElem h1,
    List.getElem?_eq_getElem h2, List.getElem?_eq_getElem h3, Option.bind_eq_bind,
    Option.some_bind, Option.pure_def, and_7f, and_ff]
  have e1 : mac[off + 1] % 256 = mac[off + 1] := Nat.mod_eq_of_lt b1
  have e2 : mac[off + 2] % 256 = mac[off + 2] := Nat.mod_eq_of_lt b2
  have e3 : mac[off + 3] % 256 = mac[off + 3] := Nat.mod_eq_of_lt b3
  rw [e1, e2, e3, or_shift_eq _ _ _ _ b1 b2 b3]
  simp only [beValue, List.foldl]
  congr 1
  omega

theorem specTruncation_lt (mac : Bytes) : specTruncation mac < 2 ^ 31 :=
  Nat.mod_lt _ (by decide)

theorem getElem?_last (mac : Bytes) (h : 1 ≤ mac.length) :
    mac[mac.length - 1]? = some (mac.getLastD 0) := by
  cases mac with
  | nil => simp at h
  | cons a l =>
    rw [← List.getLast?_eq_getElem?, List.getLastD_eq_getLast?]
    rw [List.getLast?_eq_getLast _ (by simp)]
    simp

/-- The hash `getHashFn` selects is the one the specification assigns to the
algorithm value. -/
theorem getHashFn_eq_specHash (algorithm : Algorithm) :
    getHashFn algorithm = specHash algorithm := by
  have e1 : ALGORITHM_SHA256 = ascii "sha256" := rfl
  have e2 : ALGORITHM_SHA512 = ascii "sha512" := rfl
  unfold getHashFn specHash
  rw [e1, e2]
  by_cases h1 : algorithm = ascii "sha1"
  · subst h1
    decide
  · simp only [h1, if_false]

theorem specMac_length (secret : Bytes) (algorithm : Algorithm) (counter : Int) :
    20 ≤ (specMac secret algorithm counter).length := by
  rw [specMac, hmacSum_length]
  exact HashFn.size_ge _

/-- The code generator in closed form: it fails exactly when the modulus is
zero, and otherwise formats the remainder of the specification's truncated
integer. -/
theorem generateOTP_eq (ovf : Int) (secret : Bytes) (algorithm : Algorithm) (counter digits : Int) :
    generateOTP ovf secret algorithm counter digits =
      (remInt (specTruncation (specMac secret algorithm counter)) (pow10Int ovf digits)).map
        (fun code => sprintfInt (sprintfWidthFormat digits) code) := by
  have hlen := specMac_length secret algorithm counter
  have hb : ∀ b ∈ specMac secret algorithm counter, b < 256 := hmacSum_lt _ _ _
  have hoff : (specMac secret algorithm counter).getLastD 0 &&& 0xF ≤ 15 := by
    rw [and_f]; omega
  have ht := truncate_eq _ (by omega) hb _ hoff
  have hl := getElem?_last (specMac secret algorithm counter) (by omega)
  unfold generateOTP
  rw [I2b_eq, getHashFn_eq_specHash]
  change (do
    let last ← (specMac secret algorithm counter)[(specMac secret algorithm counter).length - 1]?
    let code ← truncate (specMac secret algorithm counter) (last &&& 0xF)
    let code ← remInt (code : Int) (pow10Int ovf digits)
    pure (sprintfInt (sprintfWidthFormat digits) code)) = _
  rw [hl]
  simp only [Option.bind_eq_bind, Option.some_bind, ht, Option.pure_def]
  rw [show specTruncation (specMac secret algorithm counter)
      = beValue (((specMac secret algorithm counter).drop
          ((specMac secret algorithm counter).getLastD 0 &&& 0xF)).take 4) % 2 ^ 31 from rfl]
  generalize remInt _ (pow10Int ovf digits) = r
  cases r <;> rfl

theorem remInt_pow10 (t k : Nat) : remInt (t : Int) ((10 : Int) ^ k) = some ((t % 10 ^ k : Nat) : Int) := by
  have h : ((10 : Int) ^ k) ≠ 0 := pow_ne_zero _ (by decide)
  simp only [remInt, h, if_false]
  rw [Int.tmod_eq_emod (Int.ofNat_nonneg _) (pow_nonneg (by decide) _)]
  push_cast
  rfl

theorem tmod_natCast (t : Nat) (m : Int) : Int.tmod (t : Int) m = ((t % m.natAbs : Nat) : Int) := by
  cases m with
  | ofNat n => rfl
  | negSucc n => rfl

theorem remInt_nonneg (t : Nat) (m : Int) (hm : m ≠ 0) :
    remInt (t : Int) m = some ((t % m.natAbs : Nat) : Int) := by
  simp only [remInt, hm, if_false, tmod_natCast]

theorem ascii_pct0 : ascii "%0" = [37, 48] := by decide

theorem ascii_d : ascii "d" = [100] := by decide

theorem intDec_natCast (n : Nat) : intDec (n : Int) = natDec n := by
  have h : ¬ ((n : Int) < 0) := by omega
  simp [intDec, h]

theorem zeroPad_length (n : Nat) (s : Bytes) (h : s.length ≤ n) : (zeroPad n s).length = n := by
  simp [zeroPad]
  omega

theorem fmtInteger_zeroPad (n m : Nat) (h1 : 1 ≤ n) :
    fmtInteger true false true n (m : Int) = zeroPad n (natDec m) := by
  have h : ¬ ((m : Int) < 0) := by omega
  have hn : ¬ (n = 0) := by omega
  simp only [fmtInteger, h, Int.natAbs_ofNat, zeroPad]
  simp [hn]
  omega

theorem scanFlags_natDec (n : Nat) (h1 : 1 ≤ n) (rest : Bytes) :
    scanFlags (48 :: (natDec n ++ rest)) false false = (true, false, natDec n ++ rest) := by
  obtain ⟨c, tl, hc, h49, h57⟩ := natDec_head n h1
  have e1 : ¬ (c = 48) := by omega
  have e2 : ¬ (c = 45) := by omega
  rw [hc]
  simp [scanFlags, e1, e2]

theorem sprintfWidthFormat_natCast (n : Nat) :
    sprintfWidthFormat (n : Int) = 37 :: 48 :: (natDec n ++ [100]) := by
  rw [sprintfWidthFormat, intDec_natCast, ascii_pct0, ascii_d]
  rfl

theorem sprintfInt_directive (spec : Bytes) (arg : Int) :
    sprintfInt (37 :: spec) arg = fmtDirective spec arg := by
  simp [sprintfInt]

/-- A width between 1 and 10000009: the operand is zero-padded to the width. -/
theorem sprintf_zeroPad (n : Nat) (h1 : 1 ≤ n) (h2 : n ≤ 10000009) (m : Nat) :
    sprintfInt (sprintfWidthFormat (n : Int)) (m : Int) = zeroPad n (natDec m) := by
  rw [sprintfWidthFormat_natCast, sprintfInt_directive, fmtDirective,
    scanFlags_natDec n h1, parsenum_natDec n _ (by omega)]
  simp [parsenum, fmtInteger_zeroPad n m h1]

/-- The width 0: the format is `%00d`, two flags and no width; the operand is
printed without padding. -/
theorem sprintf_zero (m : Nat) : sprintfInt (sprintfWidthFormat 0) (m : Int) = natDec m := by
  have h : ¬ ((m : Int) < 0) := by omega
  have hf : sprintfWidthFormat 0 = [37, 48, 48, 100] := by decide
  rw [hf]
  simp [sprintfInt, fmtDirective, scanFlags, parsenum, fmtInteger, h]

/-- A width above 10000009: the width scanner gives up and no verb is left. -/
theorem sprintf_tooLarge (n : Nat) (h : 10000010 ≤ n) (m : Int) :
    sprintfInt (sprintfWidthFormat (n : Int)) m
      = ascii "%!(NOVERB)" ++ (ascii "%!(EXTRA int=" ++ (intDec m ++ ascii ")")) := by
  rw [sprintfWidthFormat_natCast, sprintfInt_directive, fmtDirective,
    scanFlags_natDec n (by omega), parsenum_natDec_tooLarge n _ (by omega)]

theorem pow10Int_ovf (ovf1 ovf2 d : Int) (h : d ≤ 18) : pow10Int ovf1 d = pow10Int ovf2 d := by
  unfold pow10Int
  by_cases h1 : d < 0
  · simp [h1]
  · simp [h1, h]

theorem generateOTP_ovf (ovf1 ovf2 : Int) (secret : Bytes) (algorithm : Algorithm)
    (counter digits : Int) (h : digits ≤ 18) :
    generateOTP ovf1 secret algorithm counter digits
      = generateOTP ovf2 secret algorithm counter digits := by
  rw [generateOTP_eq, generateOTP_eq, pow10Int_ovf ovf1 ovf2 digits h]

theorem pow10Int_small (ovf : Int) (n : Nat) (h : n ≤ 18) : pow10Int ovf (n : Int) = (10 : Int) ^ n := by
  have h1 : ¬ ((n : Int) < 0) := by omega
  have h2 : (n : Int) ≤ 18 := by omega
  simp [pow10Int, h1, h2]

theorem pow10Int_neg (ovf d : Int) (h : d < 0) : pow10Int ovf d = 0 := by
  simp [pow10Int, h]

theorem pow10Int_large (ovf d : Int) (h : 19 ≤ d) : pow10Int ovf d = ovf := by
  have h1 : ¬ (d < 0) := by omega
  have h2 : ¬ (d ≤ 18) := by omega
  simp [pow10Int, h1, h2]

theorem pow10Int_ne_zero (ovf d : Int) (h0 : 0 ≤ d) (hovf : 19 ≤ d → ovf ≠ 0) :
    pow10Int ovf d ≠ 0 := by
  by_cases h : d ≤ 18
  · obtain ⟨n, rfl⟩ := Int.eq_ofNat_of_zero_le h0
    rw [pow10Int_small ovf n (by omega)]
    exact pow_ne_zero _ (by decide)
  · rw [pow10Int_large ovf d (by omega)]
    exact hovf (by omega)

/-- A negative digit count: the modulus is zero and the function panics. -/
theorem generateOTP_neg (ovf : Int) (secret : Bytes) (algorithm : Algorithm)
    (counter digits : Int) (h : digits < 0) :
    generateOTP ovf secret algorithm counter digits = none := by
  rw [generateOTP_eq, pow10Int_neg ovf digits h]
  simp [remInt]

/-- A digit count that gives a non-zero modulus: the function returns the
formatted remainder, which is at most the truncated integer. -/
theorem generateOTP_some (ovf : Int) (secret : Bytes) (algorithm : Algorithm)
    (counter digits : Int) (h0 : 0 ≤ digits) (hovf : 19 ≤ digits → ovf ≠ 0) :
    ∃ r : Nat, r ≤ specTruncation (specMac secret algorithm counter)
      ∧ (digits ≤ 18 → r = specTruncation (specMac secret algorithm counter) % 10 ^ digits.toNat)
      ∧ generateOTP ovf secret algorithm counter digits
          = some (sprintfInt (sprintfWidthFormat digits) (r : Int)) := by
  have hne := pow10Int_ne_zero ovf digits h0 hovf
  refine ⟨specTruncation (specMac secret algorithm counter) % (pow10Int ovf digits).natAbs,
    Nat.mod_le _ _, ?_, ?_⟩
  · intro h18
    obtain ⟨n, rfl⟩ := Int.eq_ofNat_of_zero_le h0
    rw [pow10Int_small ovf n (by omega)]
    simp [Int.natAbs_pow]
  · rw [generateOTP_eq, remInt_nonneg _ _ hne]
    rfl

theorem natDec_length_le_ten (n : Nat) (h : n < 2 ^ 31) : (natDec n).length ≤ 10 :=
  natDec_length_le 9 n (by omega)

theorem zeroPad_digit (w : Nat) (s : Bytes) (hs : ∀ c ∈ s, 48 ≤ c ∧ c ≤ 57) :
    ∀ c ∈ zeroPad w s, 48 ≤ c ∧ c ≤ 57 := by
  intro c hc
  simp only [zeroPad, List.mem_append, List.mem_replicate] at hc
  rcases hc with ⟨_, rfl⟩ | hc
  · omega
  · exact hs c hc

theorem decValue_zeroPad (w n : Nat) : decValue (zeroPad w (natDec n)) = n := by
  rw [zeroPad, decValue_zeros, decValue_natDec]

theorem totp_SignPassword_ovf (ovf1 ovf2 : Int) (t : totp) (now : Int) (h : t.common.digits ≤ 18) :
    totp.SignPassword ovf1 t now = totp.SignPassword ovf2 t now := by
  unfold totp.SignPassword
  cases divInt64 now t.common.period with
  | none => rfl
  | some k => exact generateOTP_ovf ovf1 ovf2 _ _ _ _ h

theorem wrapInt64_id (x : Int) (h0 : 0 ≤ x) (h1 : x < 2 ^ 63) : wrapInt64 x = x := by
  unfold wrapInt64
  omega

theorem divInt64_pos (a b : Int) (ha : 0 ≤ a) (hb : 0 < b) (hr : a < 2 ^ 63) :
    divInt64 a b = some (a / b) := by
  have hne : b ≠ 0 := by omega
  have h1 : 0 ≤ a / b := Int.ediv_nonneg ha (by omega)
  have h2 : a / b ≤ a := Int.ediv_le_self b ha
  simp only [divInt64, hne, if_false]
  rw [Int.tdiv_eq_ediv ha (by omega), wrapInt64_id _ h1 (by omega)]

theorem divInt64_eq_none (a b : Int) : divInt64 a b = none ↔ b = 0 := by
  unfold divInt64
  by_cases h : b = 0 <;> simp [h]

theorem getHashFn_default (algorithm : Algorithm) (h256 : algorithm ≠ ALGORITHM_SHA256)
    (h512 : algorithm ≠ ALGORITHM_SHA512) : getHashFn algorithm = HashFn.sha1New := by
  simp [getHashFn, h256, h512]

theorem getHashFn_sha1 : getHashFn ALGORITHM_SHA1 = HashFn.sha1New := by decide

theorem hotp_run_eq (ovf : Int) (h : hotp) (calls : List Call) :
    hotp.run ovf h calls = (calls.map (fun c => (hotp.call ovf h c).1), h) := by
  induction calls with
  | nil => rfl
  | cons c cs ih =>
    have hc : (hotp.call ovf h c).2 = h := by cases c <;> rfl
    simp only [hotp.run, hc, ih, List.map_cons]

theorem foldl_options_field {α : Type} (sel : OptionCall → Option α) (proj : common → α)
    (hsel : ∀ (o : OptionCall) (x : common), proj (o.toOption x) = (sel o).getD (proj x))
    (calls : List OptionCall) :
    ∀ c0 : common,
      proj ((calls.map OptionCall.toOption).foldl (fun c opt => opt c) c0)
        = lastSet sel (proj c0) calls := by
  induction calls with
  | nil => intro c0; rfl
  | cons o os ih =>
    intro c0
    simp only [List.map_cons, List.foldl_cons]
    rw [ih (o.toOption c0), hsel o c0]
    simp only [lastSet, List.reverse_cons, List.findSome?_append]
    cases List.findSome? sel os.reverse with
    | some v => rfl
    | none =>
      cases hso : sel o <;> simp [List.findSome?, hso]

/-- The digit count 0: the modulus is 1, the code is 0 and it is printed
without padding. -/
theorem generateOTP_zero (ovf : Int) (secret : Bytes) (algorithm : Algorithm) (counter : Int) :
    generateOTP ovf secret algorithm counter 0 = some (natDec 0) := by
  obtain ⟨r, _, hr, hg⟩ :=
    generateOTP_some ovf secret algorithm counter 0 (by decide) (by omega)
  have hr0 : r = 0 := by
    rw [hr (by decide)]
    exact Nat.mod_one _
  subst hr0
  rw [hg]
  exact congrArg some (sprintf_zero 0)

/-! ## The claims -/

/-- C1: for the ASCII secret `12345678901234567890`, SHA1 and six digits, an
HOTP generator's `SignPassword` returns at the counters 0 to 9 the codes of
RFC 4226 Appendix D, in order. -/
theorem hotp_rfc4226_vectors (ovf : Int) :
    (List.range 10).map (fun c : Nat =>
        hotp.SignPassword ovf (NewHOTP [WithSecret (ascii "12345678901234567890"),
          WithAlgorithm ALGORITHM_SHA1, WithDigits 6, WithCounter (c : Int)]))
      = [some (ascii "755224"), some (ascii "287082"), some (ascii "359152"),
         some (ascii "969429"), some (ascii "338314"), some (ascii "254676"),
         some (ascii "287922"), some (ascii "162583"), some (ascii "399871"),
         some (ascii "520489")] := by
  have h : ∀ c : Nat,
      hotp.SignPassword ovf (NewHOTP [WithSecret (ascii "12345678901234567890"),
          WithAlgorithm ALGORITHM_SHA1, WithDigits 6, WithCounter (c : Int)])
        = hotp.SignPassword 0 (NewHOTP [WithSecret (ascii "12345678901234567890"),
          WithAlgorithm ALGORITHM_SHA1, WithDigits 6, WithCounter (c : Int)]) :=
    fun c => generateOTP_ovf ovf 0 _ _ _ _ (by show (6 : Int) ≤ 18; decide)
  simp only [h]
  decide!

/-- C2: for every secret, algorithm and counter and every digit count `d` with
`1 ≤ d ≤ 9`, `generateOTP` returns the decimal rendering, zero-padded to `d`
characters, of `T mod 10^d`, where `T` is the RFC 4226 dynamic truncation of
the HMAC, under the primitive the specification assigns to the algorithm
(`specHash`, not the code's own selector), of the 8-byte big-endian counter
keyed by the secret; read back as a decimal number the returned string is
exactly `T mod 10^d`. -/
theorem generateOTP_renders_truncation (ovf : Int) (secret : Bytes) (algorithm : Algorithm)
    (counter digits : Int) (h1 : 1 ≤ digits) (h9 : digits ≤ 9) :
    ∃ s : Bytes, generateOTP ovf secret algorithm counter digits = some s
      ∧ s = zeroPad digits.toNat
          (natDec (specTruncation (specMac secret algorithm counter) % 10 ^ digits.toNat))
      ∧ decValue s = specTruncation (specMac secret algorithm counter) % 10 ^ digits.toNat := by
  obtain ⟨r, _, hr, hg⟩ :=
    generateOTP_some ovf secret algorithm counter digits (by omega) (by omega)
  have hr18 := hr (by omega)
  obtain ⟨n, rfl⟩ := Int.eq_ofNat_of_zero_le (show 0 ≤ digits by omega)
  rw [sprintf_zeroPad n (by omega) (by omega) r] at hg
  simp only [Int.toNat_ofNat] at hr18 ⊢
  subst hr18
  exact ⟨_, hg, rfl, decValue_zeroPad _ _⟩

/-- C2 at the secret `12345678901234567890`, SHA1, counter 0 and six digits. -/
theorem generateOTP_renders_truncation_witness :
    ∃ s : Bytes,
      generateOTP 0 (ascii "12345678901234567890") ALGORITHM_SHA1 0 6 = some s
      ∧ s = zeroPad (6 : Int).toNat (natDec (specTruncation
            (specMac (ascii "12345678901234567890") ALGORITHM_SHA1 0) % 10 ^ (6 : Int).toNat))
      ∧ decValue s = specTruncation
            (specMac (ascii "12345678901234567890") ALGORITHM_SHA1 0) % 10 ^ (6 : Int).toNat :=
  generateOTP_renders_truncation 0 (ascii "12345678901234567890") ALGORITHM_SHA1 0 6
    (by decide) (by decide)

/-- C3 fails at the digit count 0: the format is `%00d`, which carries no
width, and the code `0` is printed as the one character `0`. -/
theorem generateOTP_zero_digits_length :
    generateOTP (-2 ^ 63) (ascii "12345678901234567890") ALGORITHM_SHA1 0 0 = some (ascii "0")
      ∧ ((ascii "0").length : Int) ≠ 0 :=
  ⟨generateOTP_zero _ _ _ _, by decide⟩

/-- C3, amended: for every digit count `d` with `1 ≤ d ≤ 10000009` (from 19
on, on a platform that converts an out-of-range float64 to a non-zero
integer), the string `generateOTP` returns has exactly `d` characters, all of
them decimal digits, and is a decimal rendering left-padded with `0`. -/
theorem generateOTP_length_digits (ovf : Int) (secret : Bytes) (algorithm : Algorithm)
    (counter digits : Int) (h1 : 1 ≤ digits) (hmax : digits ≤ 10000009)
    (hovf : 19 ≤ digits → ovf ≠ 0) :
    ∃ s : Bytes, generateOTP ovf secret algorithm counter digits = some s
      ∧ (s.length : Int) = digits
      ∧ (∀ c ∈ s, 48 ≤ c ∧ c ≤ 57)
      ∧ ∃ n : Nat, s = List.replicate (digits.toNat - (natDec n).length) 48 ++ natDec n := by
  obtain ⟨r, hle, hr, hg⟩ :=
    generateOTP_some ovf secret algorithm counter digits (by omega) hovf
  obtain ⟨n, rfl⟩ := Int.eq_ofNat_of_zero_le (show 0 ≤ digits by omega)
  rw [sprintf_zeroPad n (by omega) (by omega) r] at hg
  have hlen : (natDec r).length ≤ n := by
    by_cases h9 : n ≤ 9
    · have hr' := hr (by omega)
      simp only [Int.toNat_ofNat] at hr'
      obtain ⟨k, rfl⟩ : ∃ k, n = k + 1 := ⟨n - 1, by omega⟩
      exact natDec_length_le k r (by rw [hr']; exact Nat.mod_lt _ (by positivity))
    · have := natDec_length_le_ten r
        (Nat.lt_of_le_of_lt hle (specTruncation_lt _))
      omega
  refine ⟨_, hg, ?_, zeroPad_digit _ _ (natDec_digit r), r, rfl⟩
  rw [zeroPad_length n _ hlen]

/-- C3, amended, at twenty digits on amd64. -/
theorem generateOTP_length_digits_witness :
    ∃ s : Bytes, generateOTP (-2 ^ 63) (ascii "12345678901234567890") ALGORITHM_SHA1 1 20 = some s
      ∧ (s.length : Int) = 20
      ∧ (∀ c ∈ s, 48 ≤ c ∧ c ≤ 57)
      ∧ ∃ n : Nat, s = List.replicate ((20 : Int).toNat - (natDec n).length) 48 ++ natDec n :=
  generateOTP_length_digits (-2 ^ 63) (ascii "12345678901234567890") ALGORITHM_SHA1 1 20
    (by decide) (by decide) (by decide)

/-- C4: with the clock reading `now ≥ 0` an explicit input and a positive
period, the counter `SignPassword` passes to `generateOTP` is the unique `k`
with `k * period ≤ now < (k + 1) * period`, and one period later it is
`k + 1`. -/
theorem totp_counter_floor (ovf : Int) (t : totp) (now : Int) (h0 : 0 ≤ now)
    (hp : 0 < t.common.period) (hr : now + t.common.period < 2 ^ 63) :
    ∃ k : Int,
      divInt64 now t.common.period = some k
      ∧ totp.SignPassword ovf t now
          = generateOTP ovf t.common.secret t.common.algorithm k t.common.digits
      ∧ k * t.common.period ≤ now ∧ now < (k + 1) * t.common.period
      ∧ (∀ j : Int, j * t.common.period ≤ now → now < (j + 1) * t.common.period → j = k)
      ∧ divInt64 (now + t.common.period) t.common.period = some (k + 1)
      ∧ totp.SignPassword ovf t (now + t.common.period)
          = generateOTP ovf t.common.secret t.common.algorithm (k + 1) t.common.digits := by
  have hne : t.common.period ≠ 0 := by omega
  have hd1 := divInt64_pos now t.common.period h0 hp (by omega)
  have hd2 := divInt64_pos (now + t.common.period) t.common.period (by omega) hp hr
  have hsucc : (now + t.common.period) / t.common.period = now / t.common.period + 1 := by
    have := Int.add_mul_ediv_right now 1 hne
    simpa using this
  rw [hsucc] at hd2
  have hlo := Int.ediv_mul_le now hne
  have hhi := Int.lt_ediv_add_one_mul_self now hp
  refine ⟨now / t.common.period, hd1, ?_, hlo, hhi, ?_, hd2, ?_⟩
  · simp [totp.SignPassword, hd1]
  · intro j hj1 hj2
    have a1 : j ≤ now / t.common.period := (Int.le_ediv_iff_mul_le hp).mpr hj1
    have a2 : now / t.common.period < j + 1 := (Int.ediv_lt_iff_lt_mul hp).mpr hj2
    omega
  · simp [totp.SignPassword, hd2]

/-- C4 at the default period 30 and the clock reading 59. -/
theorem totp_counter_floor_witness :
    ∃ k : Int,
      divInt64 59 (NewTOTP []).common.period = some k
      ∧ totp.SignPassword 0 (NewTOTP []) 59
          = generateOTP 0 (NewTOTP []).common.secret (NewTOTP []).common.algorithm k
              (NewTOTP []).common.digits
      ∧ k * (NewTOTP []).common.period ≤ 59 ∧ 59 < (k + 1) * (NewTOTP []).common.period
      ∧ (∀ j : Int, j * (NewTOTP []).common.period ≤ 59
          → 59 < (j + 1) * (NewTOTP []).common.period → j = k)
      ∧ divInt64 (59 + (NewTOTP []).common.period) (NewTOTP []).common.period = some (k + 1)
      ∧ totp.SignPassword 0 (NewTOTP []) (59 + (NewTOTP []).common.period)
          = generateOTP 0 (NewTOTP []).common.secret (NewTOTP []).common.algorithm (k + 1)
              (NewTOTP []).common.digits :=
  totp_counter_floor 0 (NewTOTP []) 59 (by decide) (by decide) (by decide)

/-- C5: with the clock reading an explicit input, a TOTP generator with
period 30 and eight digits reproduces the RFC 6238 Appendix B vectors: at time
59 `94287082` (SHA1, 20-byte secret), `46119246` (SHA256, 32-byte secret) and
`90693936` (SHA512, 64-byte secret); at time 1111111109 `07081804` (SHA1),
leading zero kept. -/
theorem totp_rfc6238_vectors (ovf : Int) :
    totp.SignPassword ovf (NewTOTP [WithSecret (ascii "12345678901234567890"),
        WithAlgorithm ALGORITHM_SHA1, WithDigits 8, WithPeriod 30]) 59
      = some (ascii "94287082")
    ∧ totp.SignPassword ovf (NewTOTP [WithSecret (ascii "12345678901234567890123456789012"),
        WithAlgorithm ALGORITHM_SHA256, WithDigits 8, WithPeriod 30]) 59
      = some (ascii "46119246")
    ∧ totp.SignPassword ovf (NewTOTP [WithSecret
          (ascii "1234567890123456789012345678901234567890123456789012345678901234"),
        WithAlgorithm ALGORITHM_SHA512, WithDigits 8, WithPeriod 30]) 59
      = some (ascii "90693936")
    ∧ totp.SignPassword ovf (NewTOTP [WithSecret (ascii "12345678901234567890"),
        WithAlgorithm ALGORITHM_SHA1, WithDigits 8, WithPeriod 30]) 1111111109
      = some (ascii "07081804") := by
  refine ⟨?_, ?_, ?_, ?_⟩
  · exact (totp_SignPassword_ovf ovf 0 _ _ (by decide)).trans (by decide!)
  · exact (totp_SignPassword_ovf ovf 0 _ _ (by decide)).trans (by decide!)
  · exact (totp_SignPassword_ovf ovf 0 _ _ (by decide)).trans (by decide!)
  · exact (totp_SignPassword_ovf ovf 0 _ _ (by decide)).trans (by decide!)

/-- C6: `SignPassword` of a TOTP generator depends on the clock only through
the quotient of the reading by the period; successive `SignPassword` and
`SignURL` calls on an HOTP generator leave the generator, its counter
included, as it was, and every `SignPassword` among them returns the same
code. -/
theorem signPassword_time_bucket_and_fixed_counter (ovf : Int) (t : totp) (t1 t2 : Int)
    (h : hotp) (calls : List Call)
    (hbucket : Int.tdiv t1 t.common.period = Int.tdiv t2 t.common.period) :
    totp.SignPassword ovf t t1 = totp.SignPassword ovf t t2
      ∧ (hotp.run ovf h calls).2 = h
      ∧ (hotp.run ovf h calls).2.common.counter = h.common.counter
      ∧ (hotp.run ovf h calls).1.length = calls.length
      ∧ ∀ code, Reply.password code ∈ (hotp.run ovf h calls).1 → code = hotp.SignPassword ovf h := by
  rw [hotp_run_eq]
  refine ⟨?_, rfl, rfl, by simp, ?_⟩
  · simp only [totp.SignPassword, divInt64, hbucket]
  · intro code hc
    simp only [List.mem_map] at hc
    obtain ⟨c, _, hc⟩ := hc
    cases c with
    | SignPassword => simpa [hotp.call] using hc.symm
    | SignURL => simp [hotp.call] at hc

/-- C6 at the clock readings 31 and 59 of the default TOTP generator and at
three calls on the default HOTP generator. -/
theorem signPassword_time_bucket_and_fixed_counter_witness :
    totp.SignPassword 0 (NewTOTP []) 31 = totp.SignPassword 0 (NewTOTP []) 59
      ∧ (hotp.run 0 (NewHOTP []) [Call.SignPassword, Call.SignURL, Call.SignPassword]).2
          = NewHOTP []
      ∧ (hotp.run 0 (NewHOTP []) [Call.SignPassword, Call.SignURL, Call.SignPassword]).2.common.counter
          = (NewHOTP []).common.counter
      ∧ (hotp.run 0 (NewHOTP []) [Call.SignPassword, Call.SignURL, Call.SignPassword]).1.length
          = [Call.SignPassword, Call.SignURL, Call.SignPassword].length
      ∧ ∀ code, Reply.password code
            ∈ (hotp.run 0 (NewHOTP []) [Call.SignPassword, Call.SignURL, Call.SignPassword]).1
          → code = hotp.SignPassword 0 (NewHOTP []) :=
  signPassword_time_bucket_and_fixed_counter 0 (NewTOTP []) 31 59 (NewHOTP [])
    [Call.SignPassword, Call.SignURL, Call.SignPassword] (by decide)

/-- C7: after `NewTOTP` or `NewHOTP` on any sequence of options, every field of
the configuration is the value of the last option of the sequence that sets it
and, when none does, its default (`digits` 6, `period` 30, `counter` 0,
`algorithm` `sha1`, `label` `user`, `issuer` and `secret` empty); an option
changes no field but its own. -/
theorem options_last_setter_wins (calls : List OptionCall) :
    (NewHOTP (calls.map OptionCall.toOption)).common
        = (NewTOTP (calls.map OptionCall.toOption)).common
      ∧ (NewTOTP (calls.map OptionCall.toOption)).common.secret
        = lastSet OptionCall.secret? [] calls
      ∧ (NewTOTP (calls.map OptionCall.toOption)).common.algorithm
        = lastSet OptionCall.algorithm? (ascii "sha1") calls
      ∧ (NewTOTP (calls.map OptionCall.toOption)).common.digits
        = lastSet OptionCall.digits? 6 calls
      ∧ (NewTOTP (calls.map OptionCall.toOption)).common.period
        = lastSet OptionCall.period? 30 calls
      ∧ (NewTOTP (calls.map OptionCall.toOption)).common.counter
        = lastSet OptionCall.counter? 0 calls
      ∧ (NewTOTP (calls.map OptionCall.toOption)).common.issuer
        = lastSet OptionCall.issuer? [] calls
      ∧ (NewTOTP (calls.map OptionCall.toOption)).common.label
        = lastSet OptionCall.label? (ascii "user") calls
      ∧ ∀ (o : OptionCall) (x : common),
          (o.toOption x).secret = (o.secret?).getD x.secret
          ∧ (o.toOption x).algorithm = (o.algorithm?).getD x.algorithm
          ∧ (o.toOption x).digits = (o.digits?).getD x.digits
          ∧ (o.toOption x).period = (o.period?).getD x.period
          ∧ (o.toOption x).counter = (o.counter?).getD x.counter
          ∧ (o.toOption x).issuer = (o.issuer?).getD x.issuer
          ∧ (o.toOption x).label = (o.label?).getD x.label := by
  have hown : ∀ (o : OptionCall) (x : common),
      (o.toOption x).secret = (o.secret?).getD x.secret
      ∧ (o.toOption x).algorithm = (o.algorithm?).getD x.algorithm
      ∧ (o.toOption x).digits = (o.digits?).getD x.digits
      ∧ (o.toOption x).period = (o.period?).getD x.period
      ∧ (o.toOption x).counter = (o.counter?).getD x.counter
      ∧ (o.toOption x).issuer = (o.issuer?).getD x.issuer
      ∧ (o.toOption x).label = (o.label?).getD x.label := by
    intro o x
    cases o <;> exact ⟨rfl, rfl, rfl, rfl, rfl, rfl, rfl⟩
  refine ⟨rfl, ?_, ?_, ?_, ?_, ?_, ?_, ?_, hown⟩
  · exact foldl_options_field OptionCall.secret? common.secret
      (fun o x => (hown o x).1) calls _
  · exact foldl_options_field OptionCall.algorithm? common.algorithm
      (fun o x => (hown o x).2.1) calls _
  · exact foldl_options_field OptionCall.digits? common.digits
      (fun o x => (hown o x).2.2.1) calls _
  · exact foldl_options_field OptionCall.period? common.period
      (fun o x => (hown o x).2.2.2.1) calls _
  · exact foldl_options_field OptionCall.counter? common.counter
      (fun o x => (hown o x).2.2.2.2.1) calls _
  · exact foldl_options_field OptionCall.issuer? common.issuer
      (fun o x => (hown o x).2.2.2.2.2.1) calls _
  · exact foldl_options_field OptionCall.label? common.label
      (fun o x => (hown o x).2.2.2.2.2.2) calls _

/-- C8 fails at a negative digit count: with the algorithm `md5` and the
digit count -1 the modulus is zero and `generateOTP` panics. -/
theorem generateOTP_unknown_algorithm_fault :
    ascii "md5" ≠ ALGORITHM_SHA1 ∧ ascii "md5" ≠ ALGORITHM_SHA256
      ∧ ascii "md5" ≠ ALGORITHM_SHA512
      ∧ generateOTP (-2 ^ 63) (ascii "12345678901234567890") (ascii "md5") 0 (-1) = none :=
  ⟨by decide, by decide, by decide, generateOTP_neg _ _ _ _ _ (by decide)⟩

/-- C8, amended: for every algorithm value other than `sha256` and `sha512`
(so for every value outside the three names) and every secret, counter and
digit count, `generateOTP` behaves exactly as for `sha1`: it returns the same
code or panics alike; and for every digit count `d ≥ 0` (from 19 on, on a
platform that converts an out-of-range float64 to a non-zero integer) it does
not fail. -/
theorem generateOTP_unknown_algorithm_is_sha1 (ovf : Int) (secret : Bytes)
    (algorithm : Algorithm) (counter digits : Int)
    (h256 : algorithm ≠ ALGORITHM_SHA256) (h512 : algorithm ≠ ALGORITHM_SHA512) :
    generateOTP ovf secret algorithm counter digits
        = generateOTP ovf secret ALGORITHM_SHA1 counter digits
      ∧ (0 ≤ digits → (19 ≤ digits → ovf ≠ 0) →
          ∃ s : Bytes, generateOTP ovf secret algorithm counter digits = some s) := by
  constructor
  · simp only [generateOTP, getHashFn_default algorithm h256 h512, getHashFn_sha1]
  · intro h0 hovf
    obtain ⟨r, _, _, hg⟩ := generateOTP_some ovf secret algorithm counter digits h0 hovf
    exact ⟨_, hg⟩

/-- C8, amended, at the algorithm `SHA256` in upper case and six digits. -/
theorem generateOTP_unknown_algorithm_is_sha1_witness :
    generateOTP 0 (ascii "12345678901234567890") (ascii "SHA256") 1 6
        = generateOTP 0 (ascii "12345678901234567890") ALGORITHM_SHA1 1 6
      ∧ ∃ s : Bytes,
          generateOTP 0 (ascii "12345678901234567890") (ascii "SHA256") 1 6 = some s :=
  ⟨(generateOTP_unknown_algorithm_is_sha1 0 (ascii "12345678901234567890") (ascii "SHA256") 1 6
      (by decide) (by decide)).1,
   (generateOTP_unknown_algorithm_is_sha1 0 (ascii "12345678901234567890") (ascii "SHA256") 1 6
      (by decide) (by decide)).2 (by decide) (by decide)⟩

/-- C9 fails at a negative period: with period -30 and clock reading 59 the
quotient is -1, no fault occurs and `SignPassword` returns a code. -/
theorem totp_negative_period_no_fault :
    divInt64 59 (-30) = some (-1)
      ∧ totp.SignPassword (-2 ^ 63)
          (NewTOTP [WithSecret (ascii "12345678901234567890"), WithPeriod (-30)]) 59
        = some (ascii "094451") := by
  decide!

/-- C9, amended: the counter computation of a TOTP generator's `SignPassword`
raises a division fault, and no code is returned, exactly when the period is
zero; for every non-zero period, positive or negative, and every clock reading
it yields a counter. -/
theorem totp_period_fault_iff_zero (ovf : Int) (t : totp) (now : Int) :
    (divInt64 now t.common.period = none ↔ t.common.period = 0)
      ∧ (t.common.period = 0 → totp.SignPassword ovf t now = none)
      ∧ (t.common.period ≠ 0 → ∃ k : Int, divInt64 now t.common.period = some k
          ∧ totp.SignPassword ovf t now
            = generateOTP ovf t.common.secret t.common.algorithm k t.common.digits) := by
  refine ⟨divInt64_eq_none _ _, ?_, ?_⟩
  · intro h
    simp [totp.SignPassword, divInt64, h]
  · intro h
    refine ⟨wrapInt64 (Int.tdiv now t.common.period), ?_, ?_⟩ <;>
      simp [totp.SignPassword, divInt64, h]

/-- C9, amended, at the period 0 and at the period 30. -/
theorem totp_period_fault_iff_zero_witness :
    totp.SignPassword 0 (NewTOTP [WithPeriod 0]) 59 = none
      ∧ ∃ k : Int, divInt64 59 (NewTOTP [WithPeriod 30]).common.period = some k
          ∧ totp.SignPassword 0 (NewTOTP [WithPeriod 30]) 59
            = generateOTP 0 (NewTOTP [WithPeriod 30]).common.secret
                (NewTOTP [WithPeriod 30]).common.algorithm k
                (NewTOTP [WithPeriod 30]).common.digits :=
  ⟨(totp_period_fault_iff_zero 0 (NewTOTP [WithPeriod 0]) 59).2.1 (by decide),
   (totp_period_fault_iff_zero 0 (NewTOTP [WithPeriod 30]) 59).2.2 (by decide)⟩

/-- C10 fails at a negative digit count: with the digit count -1 the modulus
`int(math.Pow10(-1))` is zero and `generateOTP` panics. -/
theorem generateOTP_negative_digits_fault :
    generateOTP (-2 ^ 63) (ascii "12345678901234567890") ALGORITHM_SHA1 0 (-1) = none :=
  generateOTP_neg _ _ _ _ _ (by decide)

/-- C10, amended: for the digit count 0 and every digit count above 9 (from
19 on, on a platform that converts an out-of-range float64 to a non-zero
integer) `generateOTP` returns a string; for every negative digit count it
panics on a zero modulus. -/
theorem generateOTP_out_of_range_digits (ovf : Int) (secret : Bytes) (algorithm : Algorithm)
    (counter digits : Int) (hovf : 19 ≤ digits → ovf ≠ 0) :
    (digits = 0 ∨ 9 < digits → ∃ s : Bytes,
        generateOTP ovf secret algorithm counter digits = some s)
      ∧ (digits < 0 → generateOTP ovf secret algorithm counter digits = none) := by
  constructor
  · intro h
    obtain ⟨r, _, _, hg⟩ :=
      generateOTP_some ovf secret algorithm counter digits (by omega) hovf
    exact ⟨_, hg⟩
  · exact generateOTP_neg _ _ _ _ _

/-- C10, amended, at twelve digits and at minus three digits on amd64. -/
theorem generateOTP_out_of_range_digits_witness :
    (∃ s : Bytes, generateOTP (-2 ^ 63) (ascii "12345678901234567890") ALGORITHM_SHA1 0 12 = some s)
      ∧ generateOTP (-2 ^ 63) (ascii "12345678901234567890") ALGORITHM_SHA1 0 (-3) = none :=
  ⟨(generateOTP_out_of_range_digits (-2 ^ 63) (ascii "12345678901234567890") ALGORITHM_SHA1 0 12
      (by decide)).1 (by decide),
   (generateOTP_out_of_range_digits (-2 ^ 63) (ascii "12345678901234567890") ALGORITHM_SHA1 0 (-3)
      (by decide)).2 (by decide)⟩

/-! ## Lemmas on serialisation, truncation and the provisioning URI -/

theorem I2b_length (n : Int) : (I2b n).length = 8 := by
  rw [I2b_eq, bytesBE_length]

theorem I2b_lt (n : Int) : ∀ b ∈ I2b n, b < 256 := by
  rw [I2b_eq]
  exact bytesBE_lt _ _

theorem I2b_sum (n : Int) :
    ((List.range 8).map (fun i => (I2b n).getD i 0 * 256 ^ (7 - i))).sum
      = (n % 2 ^ 64).toNat := by
  rw [I2b_eq]
  have hx : (n % 2 ^ 64).toNat < 2 ^ 64 := by omega
  generalize (n % 2 ^ 64).toNat = x at hx
  simp only [bytesBE, List.range, List.range.loop, List.map, Nat.shiftRight_eq_div_pow,
    List.getD_cons_zero, List.getD_cons_succ, List.sum_cons, List.sum_nil]
  simp
  omega

theorem I2b_injective (n m : Int) (hn : isInt64 n) (hm : isInt64 m) (h : I2b n = I2b m) :
    n = m := by
  have h1 := I2b_sum n
  have h2 := I2b_sum m
  rw [h] at h1
  rw [h1] at h2
  unfold isInt64 at hn hm
  omega

/-- The truncation expression of the code at any offset that keeps the four
indices inside a MAC made of bytes. -/
theorem truncate_value (mac : Bytes) (off : Nat) (hb : ∀ b ∈ mac, b < 256)
    (h3 : off + 3 < mac.length) :
    truncate mac off = some ((mac.getD off 0 &&& 0x7F) * 2 ^ 24 + mac.getD (off + 1) 0 * 2 ^ 16
      + mac.getD (off + 2) 0 * 2 ^ 8 + mac.getD (off + 3) 0) := by
  have h0 : off < mac.length := by omega
  have h1 : off + 1 < mac.length := by omega
  have h2 : off + 2 < mac.length := by omega
  have b1 : mac[off + 1] < 256 := hb _ (List.getElem_mem _)
  have b2 : mac[off + 2] < 256 := hb _ (List.getElem_mem _)
  have b3 : mac[off + 3] < 256 := hb _ (List.getElem_mem _)
  simp only [truncate, List.getElem?_eq_getElem h0, List.getElem?_eq_getElem h1,
    List.getElem?_eq_getElem h2, List.getElem?_eq_getElem h3, Option.bind_eq_bind,
    Option.some_bind, Option.pure_def, and_ff, List.getD_eq_getElem _ _ h0,
    List.getD_eq_getElem _ _ h1, List.getD_eq_getElem _ _ h2, List.getD_eq_getElem _ _ h3]
  rw [Nat.mod_eq_of_lt b1, Nat.mod_eq_of_lt b2, Nat.mod_eq_of_lt b3,
    or_shift_eq _ _ _ _ b1 b2 b3]

theorem truncate_isSome (mac : Bytes) (off : Nat) (h3 : off + 3 < mac.length) :
    ∃ code, truncate mac off = some code := by
  have h0 : off < mac.length := by omega
  have h1 : off + 1 < mac.length := by omega
  have h2 : off + 2 < mac.length := by omega
  simp [truncate, List.getElem?_eq_getElem h0, List.getElem?_eq_getElem h1,
    List.getElem?_eq_getElem h2, List.getElem?_eq_getElem h3]

theorem HashFn.size_cases (h : HashFn) : h.size = 20 ∨ h.size = 32 ∨ h.size = 64 := by
  cases h <;> simp [HashFn.size]

theorem zeroPad_getElem?_zero (w : Nat) (s : Bytes) (i : Nat) (h : i < w - s.length) :
    (zeroPad w s)[i]? = some 48 := by
  unfold zeroPad
  rw [List.getElem?_append_left (by simpa using h)]
  simp [h]

theorem zeroPad_getElem?_head (w : Nat) (s : Bytes) (h : s.length ≤ w) :
    (zeroPad w s)[w - s.length]? = s.head? := by
  unfold zeroPad
  rw [List.getElem?_append_right (by simp)]
  cases s <;> simp

theorem natDec_head_value (n : Nat) :
    (natDec n).head? = some (48 + n / 10 ^ ((natDec n).length - 1)) := by
  induction n using Nat.strong_induction_on with
  | _ n ih =>
    by_cases h : n < 10
    · rw [natDec_lt_ten n h]; simp
    · have hpos := natDec_length_pos (n / 10)
      rw [natDec_step n (by omega), List.head?_append_of_ne_nil _ (by
        intro hnil; rw [hnil] at hpos; simp at hpos), ih (n / 10) (by omega)]
      simp only [List.length_append, List.length_singleton, Nat.add_sub_cancel]
      congr 2
      rw [Nat.div_div_eq_div_mul]
      congr 1
      obtain ⟨k, hk⟩ : ∃ k, (natDec (n / 10)).length = k + 1 := ⟨_, (Nat.sub_add_cancel hpos).symm⟩
      rw [hk, Nat.add_sub_cancel, pow_succ, Nat.mul_comm]

theorem escape_nil (mode : encoding) : escape [] mode = [] := rfl

theorem escape_cons (c : Nat) (s : Bytes) (mode : encoding) :
    escape (c :: s) mode = escape [c] mode ++ escape s mode := by
  simp [escape]

theorem escape_append (s t : Bytes) (mode : encoding) :
    escape (s ++ t) mode = escape s mode ++ escape t mode := by
  simp [escape]

theorem escape_single_keep (c : Nat) (mode : encoding) (h : shouldEscape c mode = false) :
    escape [c] mode = [c] := by
  simp [escape, h]

theorem escape_single_plus (h : shouldEscape 32 encoding.encodeQueryComponent = true) :
    escape [32] encoding.encodeQueryComponent = [43] := by
  simp [escape, h]

theorem escape_single_hex (c : Nat) (mode : encoding) (h : shouldEscape c mode = true)
    (hsp : ¬ (c = 32 ∧ mode = encoding.encodeQueryComponent)) :
    escape [c] mode = [37, upperhex (c >>> 4), upperhex (c &&& 15)] := by
  simp only [escape, List.flatMap_cons, List.flatMap_nil, List.append_nil, h, if_true]
  rw [if_neg hsp]

theorem upperhex_lt (n : Nat) (h : n < 16) :
    ishex (upperhex n) = true ∧ unhex (upperhex n) = n := by
  interval_cases n <;> decide

theorem upperhex_range (n : Nat) :
    upperhex n = 0 ∨ (48 ≤ upperhex n ∧ upperhex n ≤ 57) ∨ (65 ≤ upperhex n ∧ upperhex n ≤ 70) := by
  by_cases h : n < 16
  · interval_cases n <;> decide
  · left
    unfold upperhex
    rw [List.getD_eq_default]
    have : (ascii "0123456789ABCDEF").length = 16 := by decide
    omega

/-- What an escaped text is made of: bytes kept because they need no escape,
the `+` and `%` signs, and hexadecimal digits (or the byte 0 in place of a
digit when the escaped element is not a byte). -/
theorem mem_escape (s : Bytes) (mode : encoding) (x : Nat) (hx : x ∈ escape s mode) :
    (x ∈ s ∧ shouldEscape x mode = false) ∨ x = 43 ∨ x = 37 ∨ x = 0
      ∨ (48 ≤ x ∧ x ≤ 57) ∨ (65 ≤ x ∧ x ≤ 70) := by
  induction s with
  | nil => simp [escape] at hx
  | cons c s ih =>
    rw [escape_cons, List.mem_append] at hx
    rcases hx with hx | hx
    · by_cases hs : shouldEscape c mode = true
      · by_cases hsp : c = 32 ∧ mode = encoding.encodeQueryComponent
        · obtain ⟨rfl, rfl⟩ := hsp
          rw [escape_single_plus hs] at hx
          simp at hx
          omega
        · rw [escape_single_hex c mode hs hsp] at hx
          simp only [List.mem_cons, List.mem_singleton, List.not_mem_nil, or_false] at hx
          rcases hx with rfl | rfl | rfl
          · omega
          · have := upperhex_range (c >>> 4); omega
          · have := upperhex_range (c &&& 15); omega
      · have hs' : shouldEscape c mode = false := by simpa using hs
        rw [escape_single_keep c mode hs'] at hx
        simp only [List.mem_singleton] at hx
        subst hx
        exact Or.inl ⟨List.mem_cons_self _ _, hs'⟩
    · rcases ih hx with ⟨h1, h2⟩ | h
      · exact Or.inl ⟨List.mem_cons_of_mem _ h1, h2⟩
      · exact Or.inr h

/-- A byte that the mode escapes, and that is no `+`, `%`, digit or letter
`A`..`F`, does not occur in an escaped text. -/
theorem not_mem_escape (s : Bytes) (mode : encoding) (x : Nat)
    (hs : shouldEscape x mode = true) (h0 : x ≠ 0) (h43 : x ≠ 43) (h37 : x ≠ 37)
    (hd : ¬ (48 ≤ x ∧ x ≤ 57)) (hl : ¬ (65 ≤ x ∧ x ≤ 70)) : x ∉ escape s mode := by
  intro hx
  rcases mem_escape s mode x hx with ⟨_, h⟩ | h | h | h | h | h
  · rw [hs] at h; cases h
  · exact h43 h
  · exact h37 h
  · exact h0 h
  · exact hd h
  · exact hl h

theorem byte_nibbles (c : Nat) (h : c < 256) :
    c >>> 4 < 16 ∧ c &&& 15 < 16 ∧ (c >>> 4) * 16 + (c &&& 15) = c := by
  rw [Nat.shiftRight_eq_div_pow, and_f]
  omega

theorem unescape_keep (p : Bool) (c : Nat) (rest : Bytes) (h37 : c ≠ 37)
    (h43 : ¬ (c = 43 ∧ p = true)) :
    unescape p (c :: rest) = (unescape p rest).map fun s => c :: s := by
  rcases rest with _ | ⟨a, _ | ⟨b, r⟩⟩ <;> simp only [unescape, h37, if_false] <;> rw [if_neg h43]

theorem unescape_plus (rest : Bytes) :
    unescape true (43 :: rest) = (unescape true rest).map fun s => 32 :: s := by
  rcases rest with _ | ⟨a, _ | ⟨b, r⟩⟩ <;> simp [unescape]

theorem unescape_hex (p : Bool) (a b : Nat) (rest : Bytes) (ha : ishex a = true)
    (hb : ishex b = true) :
    unescape p (37 :: a :: b :: rest)
      = (unescape p rest).map fun s => (unhex a * 16 + unhex b) :: s := by
  simp [unescape, ha, hb]
/-- Unescaping an escaped text of bytes gives the text back, in
query-component mode. -/
theorem QueryUnescape_QueryEscape (s : Bytes) (hs : isBytes s) :
    QueryUnescape (QueryEscape s) = some s := by
  unfold QueryUnescape QueryEscape
  induction s with
  | nil => rfl
  | cons c s ih =>
    have hc : c < 256 := hs c (List.mem_cons_self _ _)
    have ih' := ih (fun b hb => hs b (List.mem_cons_of_mem _ hb))
    rw [escape_cons]
    by_cases hse : shouldEscape c encoding.encodeQueryComponent = true
    · by_cases hsp : c = 32 ∧ encoding.encodeQueryComponent = encoding.encodeQueryComponent
      · obtain ⟨rfl, _⟩ := hsp
        rw [escape_single_plus hse]
        simp only [List.cons_append, List.nil_append]
        rw [unescape_plus, ih']
        rfl
      · rw [escape_single_hex c _ hse hsp]
        obtain ⟨n1, n2, n3⟩ := byte_nibbles c hc
        obtain ⟨a1, a2⟩ := upperhex_lt _ n1
        obtain ⟨b1, b2⟩ := upperhex_lt _ n2
        simp only [List.cons_append, List.nil_append]
        rw [unescape_hex _ _ _ _ a1 b1, ih', a2, b2, n3]
        rfl
    · have hs' : shouldEscape c encoding.encodeQueryComponent = false := by simpa using hse
      have h37 : c ≠ 37 := by
        rintro rfl
        exact absurd hs' (by decide)
      have h43 : c ≠ 43 := by
        rintro rfl
        exact absurd hs' (by decide)
      rw [escape_single_keep c _ hs']
      simp only [List.cons_append, List.nil_append]
      rw [unescape_keep _ _ _ h37 (by simp [h43]), ih']
      rfl

/-- A text made of bytes that need no escape is its own escape. -/
theorem escape_id (s : Bytes) (mode : encoding) (h : ∀ c ∈ s, shouldEscape c mode = false) :
    escape s mode = s := by
  induction s with
  | nil => rfl
  | cons c s ih =>
    rw [escape_cons, escape_single_keep c mode (h c (List.mem_cons_self _ _)),
      ih (fun b hb => h b (List.mem_cons_of_mem _ hb))]
    rfl

theorem shouldEscape_digit (c : Nat) (mode : encoding) (h1 : 48 ≤ c) (h2 : c ≤ 57) :
    shouldEscape c mode = false := by
  have : isAlnum c = true := by
    simp [isAlnum]
    omega
  simp [shouldEscape, this]

theorem QueryEscape_intDec (v : Int) : QueryEscape (intDec v) = intDec v := by
  apply escape_id
  intro c hc
  unfold intDec at hc
  split at hc
  · simp only [List.mem_cons] at hc
    rcases hc with rfl | hc
    · decide
    · obtain ⟨h1, h2⟩ := natDec_digit _ c hc
      exact shouldEscape_digit c _ h1 h2
  · obtain ⟨h1, h2⟩ := natDec_digit _ c hc
    exact shouldEscape_digit c _ h1 h2

theorem cut_append (sep : Nat) (a b : Bytes) (h : sep ∉ a) :
    cut sep (a ++ sep :: b) = (a, b) := by
  induction a with
  | nil => simp [cut]
  | cons c a ih =>
    have hc : c ≠ sep := fun e => h (e ▸ List.mem_cons_self _ _)
    have ha : sep ∉ a := fun e => h (List.mem_cons_of_mem _ e)
    simp [cut, hc, ih ha]

theorem cut_absent (sep : Nat) (a : Bytes) (h : sep ∉ a) : cut sep a = (a, []) := by
  induction a with
  | nil => rfl
  | cons c a ih =>
    have hc : c ≠ sep := fun e => h (e ▸ List.mem_cons_self _ _)
    have ha : sep ∉ a := fun e => h (List.mem_cons_of_mem _ e)
    simp [cut, hc, ih ha]

theorem splitOn_ne_nil (sep : Nat) (s : Bytes) : splitOn sep s ≠ [] := by
  induction s with
  | nil => simp [splitOn]
  | cons c s ih =>
    unfold splitOn
    split
    · simp
    · split <;> simp

theorem splitOn_absent (sep : Nat) (a : Bytes) (h : sep ∉ a) : splitOn sep a = [a] := by
  induction a with
  | nil => rfl
  | cons c a ih =>
    have hc : c ≠ sep := fun e => h (e ▸ List.mem_cons_self _ _)
    have ha : sep ∉ a := fun e => h (List.mem_cons_of_mem _ e)
    simp [splitOn, hc, ih ha]

theorem splitOn_append (sep : Nat) (a b : Bytes) (h : sep ∉ a) :
    splitOn sep (a ++ sep :: b) = a :: splitOn sep b := by
  induction a with
  | nil => simp [splitOn]
  | cons c a ih =>
    have hc : c ≠ sep := fun e => h (e ▸ List.mem_cons_self _ _)
    have ha : sep ∉ a := fun e => h (List.mem_cons_of_mem _ e)
    simp [splitOn, hc, ih ha]

theorem intercalate_cons_cons (sep a b : Bytes) (rest : List Bytes) :
    sep.intercalate (a :: b :: rest) = a ++ (sep ++ sep.intercalate (b :: rest)) := by
  simp [List.intercalate, List.intersperse]

theorem intercalate_single (sep a : Bytes) : sep.intercalate [a] = a := by
  simp [List.intercalate, List.intersperse]

/-- Splitting at a separator undoes joining with it, for pieces that do not
hold the separator. -/
theorem splitOn_intercalate (sep : Nat) (pieces : List Bytes) (hne : pieces ≠ [])
    (h : ∀ p ∈ pieces, sep ∉ p) :
    splitOn sep (([sep] : Bytes).intercalate pieces) = pieces := by
  induction pieces with
  | nil => exact absurd rfl hne
  | cons a rest ih =>
    cases rest with
    | nil =>
      rw [intercalate_single]
      exact splitOn_absent sep a (h a (List.mem_cons_self _ _))
    | cons b rest =>
      rw [intercalate_cons_cons]
      simp only [List.singleton_append]
      rw [splitOn_append sep a _ (h a (List.mem_cons_self _ _)),
        ih (by simp) (fun p hp => h p (List.mem_cons_of_mem _ hp))]

theorem QueryEscape_not_mem (s : Bytes) (x : Nat)
    (hx : x = 38 ∨ x = 61 ∨ x = 59 ∨ x = 63 ∨ x = 35) : x ∉ QueryEscape s := by
  apply not_mem_escape
  · rcases hx with rfl | rfl | rfl | rfl | rfl <;> decide
  all_goals omega

/-- A rendered setting `key=value` is parsed back to its key and value. -/
theorem parsePair_rendered (key value : Bytes) (hk : isBytes key) (hv : isBytes value) :
    parsePair (QueryEscape key ++ (ascii "=" ++ QueryEscape value)) = some (key, value) := by
  have e : ascii "=" = [61] := by decide
  rw [e]
  have h59 : 59 ∉ QueryEscape key ++ ([61] ++ QueryEscape value) := by
    simp only [List.mem_append, List.mem_singleton, not_or]
    exact ⟨QueryEscape_not_mem key 59 (by simp), by decide, QueryEscape_not_mem value 59 (by simp)⟩
  have hne : QueryEscape key ++ ([61] ++ QueryEscape value) ≠ [] := by simp
  unfold parsePair
  rw [if_neg h59, if_neg hne]
  simp only [List.singleton_append]
  rw [cut_append 61 _ _ (QueryEscape_not_mem key 61 (by simp)),
    QueryUnescape_QueryEscape key hk, QueryUnescape_QueryEscape value hv]

theorem rendered_not_mem_amp (key value : Bytes) :
    38 ∉ QueryEscape key ++ (ascii "=" ++ QueryEscape value) := by
  have e : ascii "=" = [61] := by decide
  rw [e]
  simp only [List.mem_append, List.mem_singleton, not_or]
  exact ⟨QueryEscape_not_mem key 38 (by simp), by decide, QueryEscape_not_mem value 38 (by simp)⟩

theorem filterMap_parsePair_rendered (v : List (Bytes × Bytes))
    (h : ∀ kv ∈ v, isBytes kv.1 ∧ isBytes kv.2) :
    (v.map fun kv => QueryEscape kv.1 ++ (ascii "=" ++ QueryEscape kv.2)).filterMap parsePair
      = v := by
  induction v with
  | nil => rfl
  | cons kv v ih =>
    obtain ⟨hk, hv⟩ := h kv (List.mem_cons_self _ _)
    simp only [List.map_cons, List.filterMap_cons, parsePair_rendered kv.1 kv.2 hk hv]
    rw [ih (fun x hx => h x (List.mem_cons_of_mem _ hx))]

/-- Parsing a query rendered from settings gives the settings back. -/
theorem ParseQuery_rendered (v : List (Bytes × Bytes))
    (h : ∀ kv ∈ v, isBytes kv.1 ∧ isBytes kv.2) :
    ParseQuery ((ascii "&").intercalate
        (v.map fun kv => QueryEscape kv.1 ++ (ascii "=" ++ QueryEscape kv.2))) = v := by
  have e : ascii "&" = [38] := by decide
  unfold ParseQuery
  rw [e]
  by_cases hnil : v = []
  · rw [hnil]
    rfl
  · rw [splitOn_intercalate 38 _ (by simpa using hnil)]
    · exact filterMap_parsePair_rendered _ h
    · intro p hp
      simp only [List.mem_map] at hp
      obtain ⟨kv, _, rfl⟩ := hp
      exact rendered_not_mem_amp kv.1 kv.2

theorem mem_intercalate (sep : Bytes) (pieces : List Bytes) (x : Nat)
    (h : x ∈ sep.intercalate pieces) : x ∈ sep ∨ ∃ p ∈ pieces, x ∈ p := by
  induction pieces with
  | nil => simp [List.intercalate, List.intersperse] at h
  | cons a rest ih =>
    cases rest with
    | nil =>
      rw [intercalate_single] at h
      exact Or.inr ⟨a, List.mem_cons_self _ _, h⟩
    | cons b rest =>
      rw [intercalate_cons_cons] at h
      simp only [List.mem_append] at h
      rcases h with h | h | h
      · exact Or.inr ⟨a, List.mem_cons_self _ _, h⟩
      · exact Or.inl h
      · rcases ih h with h | ⟨p, hp, hx⟩
        · exact Or.inl h
        · exact Or.inr ⟨p, List.mem_cons_of_mem _ hp, hx⟩

theorem escape_eq_nil (s : Bytes) (mode : encoding) (h : escape s mode = []) : s = [] := by
  cases s with
  | nil => rfl
  | cons c s =>
    rw [escape_cons] at h
    have h1 : escape [c] mode = [] := (List.append_eq_nil.mp h).1
    by_cases hs : shouldEscape c mode = true
    · by_cases hsp : c = 32 ∧ mode = encoding.encodeQueryComponent
      · obtain ⟨rfl, rfl⟩ := hsp
        rw [escape_single_plus hs] at h1
        cases h1
      · rw [escape_single_hex c mode hs hsp] at h1
        cases h1
    · rw [escape_single_keep c mode (by simpa using hs)] at h1
      cases h1

theorem PathEscape_not_mem (s : Bytes) (x : Nat)
    (hx : x = 42 ∨ x = 47 ∨ x = 63 ∨ x = 35) : x ∉ PathEscape s := by
  apply not_mem_escape
  · rcases hx with rfl | rfl | rfl | rfl <;> decide
  all_goals omega

/-- The path `URL.String` writes for a path made by `PathEscape`: it holds no
`/`, `?` or `#`. -/
theorem escapedPath_not_mem (label : Bytes) (x : Nat) (hx : x = 47 ∨ x = 63 ∨ x = 35) :
    x ∉ escape (PathEscape label) encoding.encodePath := by
  intro hmem
  rcases mem_escape _ _ x hmem with ⟨h, _⟩ | h | h | h | h | h
  · exact PathEscape_not_mem label x (by omega) h
  all_goals omega

theorem otpauth_scheme (x : Bytes) :
    ascii "otpauth" ++ (ascii ":" ++ (ascii "//" ++ x)) = ascii "otpauth://" ++ x := by
  have e : ascii "otpauth://" = ascii "otpauth" ++ (ascii ":" ++ ascii "//") := by decide
  rw [e]
  simp

/-- The method `URL.String` on the URL `signURL` builds, for a non-empty raw
query. -/
theorem URL_String_signURL (host label query : Bytes) (hh : host = ascii "hotp" ∨ host = ascii "totp")
    (hq : query ≠ []) :
    URL.String ⟨ascii "otpauth", host, PathEscape label, query⟩
      = ascii "otpauth://" ++ (host
          ++ ((if label = [] then [] else ascii "/" ++ escape (PathEscape label) encoding.encodePath)
          ++ (ascii "?" ++ query))) := by
  have hstar : PathEscape label ≠ ascii "*" := by
    intro h
    have : 42 ∈ PathEscape label := by rw [h]; decide
    exact PathEscape_not_mem label 42 (by simp) this
  have hhost : escape host encoding.encodeHost = host ∧ host ≠ [] := by
    rcases hh with rfl | rfl <;> exact ⟨by decide, by decide⟩
  have hs : ascii "otpauth" ≠ [] := by decide
  unfold URL.String URL.EscapedPath
  simp only [hq, hs, hhost.1, hhost.2, hstar, ne_eq, not_false_eq_true, if_true, if_false,
    true_or, or_true, and_true]
  by_cases hl : label = []
  · subst hl
    simp only [if_true]
    have : PathEscape [] = [] := rfl
    rw [this, escape_nil]
    simp only [List.append_nil, List.append_assoc, List.nil_append]
    exact otpauth_scheme _
  · have hp : escape (PathEscape label) encoding.encodePath ≠ [] := by
      intro h
      exact hl (escape_eq_nil _ _ (escape_eq_nil _ _ h))
    have h47 : (escape (PathEscape label) encoding.encodePath).head? ≠ some 47 := by
      intro h
      exact escapedPath_not_mem label 47 (by simp) (List.mem_of_mem_head? h)
    have hempty : ¬ (ascii "otpauth" ++ ascii ":" ++ (ascii "//" ++ host) ++ ascii "/" = []) := by
      simp [hs]
    simp only [hl, hp, h47, not_false_eq_true, and_self, if_true, if_false, hempty, false_and]
    simp only [List.append_nil, List.append_assoc, List.nil_append]
    exact otpauth_scheme _

theorem signURL_unfold (secret : Bytes) (isHOTP : Bool) (issuer label : Bytes)
    (algorithm : Algorithm) (digits counter period : Int) :
    signURL secret isHOTP issuer label algorithm digits counter period
      = URL.String ⟨ascii "otpauth", if isHOTP then ascii "hotp" else ascii "totp",
          PathEscape label,
          (ascii "&").intercalate
            ((querySettings secret isHOTP issuer algorithm digits counter period).map
              fun kv => QueryEscape kv.1 ++ (ascii "=" ++ QueryEscape kv.2))⟩ := by
  cases isHOTP <;> cases issuer <;> rfl

theorem rendered_ne_nil (secret : Bytes) (isHOTP : Bool) (issuer : Bytes)
    (algorithm : Algorithm) (digits counter period : Int) :
    (ascii "&").intercalate
        ((querySettings secret isHOTP issuer algorithm digits counter period).map
          fun kv => QueryEscape kv.1 ++ (ascii "=" ++ QueryEscape kv.2)) ≠ [] := by
  intro h
  have h2 := congrArg List.length h
  cases isHOTP <;> by_cases hi : issuer = [] <;>
    simp [querySettings, hi, List.intercalate, List.intersperse, ascii] at h2

/-- The URI of `signURL` in closed form: scheme, host, path, `?`, and the
rendered settings joined by `&`. -/
theorem signURL_closed (secret : Bytes) (isHOTP : Bool) (issuer label : Bytes)
    (algorithm : Algorithm) (digits counter period : Int) :
    signURL secret isHOTP issuer label algorithm digits counter period
      = ascii "otpauth://" ++ ((if isHOTP then ascii "hotp" else ascii "totp")
          ++ ((if label = [] then []
                else ascii "/" ++ escape (PathEscape label) encoding.encodePath)
          ++ (ascii "?" ++ (ascii "&").intercalate
            ((querySettings secret isHOTP issuer algorithm digits counter period).map
              fun kv => QueryEscape kv.1 ++ (ascii "=" ++ QueryEscape kv.2))))) := by
  rw [signURL_unfold, URL_String_signURL _ _ _ (by cases isHOTP <;> simp)
    (rendered_ne_nil _ _ _ _ _ _ _)]

theorem isBytes_natDec (n : Nat) : isBytes (natDec n) := by
  intro b hb
  have := natDec_digit n b hb
  omega

theorem isBytes_intDec (v : Int) : isBytes (intDec v) := by
  intro b hb
  unfold intDec at hb
  split at hb
  · simp only [List.mem_cons] at hb
    rcases hb with rfl | hb
    · decide
    · exact isBytes_natDec _ b hb
  · exact isBytes_natDec _ b hb

theorem base32Alphabet_getD (v : Nat) :
    base32Alphabet.getD v 0 = 0 ∨ (65 ≤ base32Alphabet.getD v 0 ∧ base32Alphabet.getD v 0 ≤ 90)
      ∨ (50 ≤ base32Alphabet.getD v 0 ∧ base32Alphabet.getD v 0 ≤ 55) := by
  by_cases h : v < 32
  · interval_cases v <;> decide
  · left
    rw [List.getD_eq_default]
    have : base32Alphabet.length = 32 := by decide
    omega

theorem isBytes_base32Chars (n : Nat) (q : List Nat) : isBytes (base32Chars n q) := by
  intro b hb
  simp only [base32Chars, List.mem_append, List.mem_map, List.mem_replicate] at hb
  rcases hb with ⟨v, _, rfl⟩ | ⟨_, rfl⟩
  · have := base32Alphabet_getD v
    omega
  · omega

theorem isBytes_append (s t : Bytes) (hs : isBytes s) (ht : isBytes t) : isBytes (s ++ t) := by
  intro b hb
  rcases List.mem_append.mp hb with h | h
  · exact hs b h
  · exact ht b h

theorem isBytes_base32Encode : ∀ s : Bytes, isBytes (base32Encode s)
  | [] => by intro b hb; simp [base32Encode] at hb
  | [_] => isBytes_base32Chars _ _
  | [_, _] => isBytes_base32Chars _ _
  | [_, _, _] => isBytes_base32Chars _ _
  | [_, _, _, _] => isBytes_base32Chars _ _
  | _ :: _ :: _ :: _ :: _ :: rest => by
    rw [base32Encode]
    exact isBytes_append _ _ (isBytes_base32Chars _ _) (isBytes_base32Encode rest)

theorem isBytes_querySettings (secret : Bytes) (isHOTP : Bool) (issuer : Bytes)
    (algorithm : Algorithm) (digits counter period : Int)
    (ha : isBytes algorithm) (hi : isBytes issuer) :
    ∀ kv ∈ querySettings secret isHOTP issuer algorithm digits counter period,
      isBytes kv.1 ∧ isBytes kv.2 := by
  have k1 : isBytes (ascii "algorithm") := by unfold isBytes; decide
  have k2 : isBytes (ascii "counter") := by unfold isBytes; decide
  have k3 : isBytes (ascii "digits") := by unfold isBytes; decide
  have k4 : isBytes (ascii "issuer") := by unfold isBytes; decide
  have k5 : isBytes (ascii "period") := by unfold isBytes; decide
  have k6 : isBytes (ascii "secret") := by unfold isBytes; decide
  intro kv hkv
  simp only [querySettings, List.mem_append, List.mem_singleton] at hkv
  rcases hkv with ((((hkv | hkv) | hkv) | hkv) | hkv) | hkv
  · subst hkv; exact ⟨k1, ha⟩
  · split at hkv
    · rw [List.mem_singleton] at hkv; subst hkv; exact ⟨k2, isBytes_intDec _⟩
    · cases hkv
  · subst hkv; exact ⟨k3, isBytes_intDec _⟩
  · split at hkv
    · rw [List.mem_singleton] at hkv; subst hkv; exact ⟨k4, hi⟩
    · cases hkv
  · split at hkv
    · cases hkv
    · rw [List.mem_singleton] at hkv; subst hkv; exact ⟨k5, isBytes_intDec _⟩
  · subst hkv; exact ⟨k6, isBytes_base32Encode _⟩

/-- The query a client reads from the URI of `signURL` is the list of
settings, keys in sorted order. -/
theorem queryOf_signURL (secret : Bytes) (isHOTP : Bool) (issuer label : Bytes)
    (algorithm : Algorithm) (digits counter period : Int)
    (ha : isBytes algorithm) (hi : isBytes issuer) :
    queryOf (signURL secret isHOTP issuer label algorithm digits counter period)
      = querySettings secret isHOTP issuer algorithm digits counter period := by
  have hb := isBytes_querySettings secret isHOTP issuer algorithm digits counter period ha hi
  have hq : ∀ x, x = 35 ∨ x = 63 →
      x ∉ (ascii "&").intercalate
        ((querySettings secret isHOTP issuer algorithm digits counter period).map
          fun kv => QueryEscape kv.1 ++ (ascii "=" ++ QueryEscape kv.2)) := by
    intro x hx hmem
    rcases mem_intercalate _ _ x hmem with h | ⟨p, hp, hxp⟩
    · have e : ascii "&" = [38] := by decide
      rw [e] at h
      simp at h
      omega
    · simp only [List.mem_map] at hp
      obtain ⟨kv, _, rfl⟩ := hp
      have e : ascii "=" = [61] := by decide
      rw [e] at hxp
      simp only [List.mem_append, List.mem_singleton] at hxp
      rcases hxp with h | h | h
      · exact QueryEscape_not_mem kv.1 x (by omega) h
      · omega
      · exact QueryEscape_not_mem kv.2 x (by omega) h
  have hpre : ∀ x, x = 35 ∨ x = 63 →
      x ∉ ascii "otpauth://" ++ ((if isHOTP then ascii "hotp" else ascii "totp")
          ++ (if label = [] then []
                else ascii "/" ++ escape (PathEscape label) encoding.encodePath)) := by
    intro x hx hmem
    simp only [List.mem_append] at hmem
    rcases hmem with h | h | h
    · rcases hx with rfl | rfl <;> exact absurd h (by decide)
    · cases isHOTP <;> rcases hx with rfl | rfl <;> exact absurd h (by decide)
    · split at h
      · cases h
      · simp only [List.mem_append] at h
        rcases h with h | h
        · rcases hx with rfl | rfl <;> exact absurd h (by decide)
        · exact escapedPath_not_mem label x (by omega) h
  unfold queryOf rawQueryOf
  rw [signURL_closed]
  have e : ascii "?" = [63] := by decide
  rw [e]
  set pre := ascii "otpauth://" ++ ((if isHOTP then ascii "hotp" else ascii "totp")
          ++ (if label = [] then []
                else ascii "/" ++ escape (PathEscape label) encoding.encodePath)) with hpre_def
  set q := (ascii "&").intercalate
        ((querySettings secret isHOTP issuer algorithm digits counter period).map
          fun kv => QueryEscape kv.1 ++ (ascii "=" ++ QueryEscape kv.2)) with hq_def
  have hform : ascii "otpauth://" ++ ((if isHOTP then ascii "hotp" else ascii "totp")
          ++ ((if label = [] then []
                else ascii "/" ++ escape (PathEscape label) encoding.encodePath)
          ++ ([63] ++ q))) = pre ++ 63 :: q := by
    simp [hpre_def]
  rw [hform]
  have h35 : 35 ∉ pre ++ 63 :: q := by
    simp only [List.mem_append, List.mem_cons, not_or]
    exact ⟨hpre 35 (by simp), by decide, hq 35 (by simp)⟩
  rw [cut_absent 35 _ h35, cut_append 63 pre q (hpre 63 (by simp))]
  exact ParseQuery_rendered _ hb

theorem shl_or (x k y : Nat) (hy : y < 2 ^ k) : (x <<< k) ||| y = x * 2 ^ k + y := by
  rw [Nat.shiftLeft_eq, Nat.mul_comm x, ← Nat.mul_add_lt_is_or hy x]

theorem and_mask (x k : Nat) : x &&& (2 ^ k - 1) = x % 2 ^ k := Nat.and_pow_two_sub_one_eq_mod x k

/-- The eight 5-bit groups of a quantum of bytes, in arithmetic. -/
theorem base32Quantum_eq (b0 b1 b2 b3 b4 : Nat) (h1 : b1 < 256) (h2 : b2 < 256)
    (h3 : b3 < 256) (h4 : b4 < 256) :
    base32Quantum b0 b1 b2 b3 b4
      = [b0 / 8, b0 % 8 * 4 + b1 / 64, b1 / 2 % 32, b1 % 2 * 16 + b2 / 16,
         b2 % 16 * 2 + b3 / 128, b3 / 4 % 32, b3 % 4 * 8 + b4 / 32, b4 % 32] := by
  unfold base32Quantum
  have e7 : b0 &&& 7 = b0 % 8 := and_mask b0 3
  have e31a : (b1 >>> 1) &&& 31 = (b1 >>> 1) % 32 := and_mask _ 5
  have e1 : b1 &&& 1 = b1 % 2 := and_mask b1 1
  have e15 : b2 &&& 15 = b2 % 16 := and_mask b2 4
  have e31b : (b3 >>> 2) &&& 31 = (b3 >>> 2) % 32 := and_mask _ 5
  have e3 : b3 &&& 3 = b3 % 4 := and_mask b3 2
  have e31c : b4 &&& 31 = b4 % 32 := and_mask b4 5
  rw [e7, e31a, e1, e15, e31b, e3, e31c]
  simp only [Nat.shiftRight_eq_div_pow]
  rw [shl_or _ 2 _ (by omega), shl_or _ 4 _ (by omega), shl_or _ 1 _ (by omega),
    shl_or _ 3 _ (by omega)]
  norm_num

theorem base32Index_getD (v : Nat) (h : v < 32) :
    base32Index (base32Alphabet.getD v 0) = some v ∧ base32Alphabet.getD v 0 ≠ 61 := by
  interval_cases v <;> decide

theorem base32Indices_map (q : List Nat) (h : ∀ v ∈ q, v < 32) :
    base32Indices (q.map fun v => base32Alphabet.getD v 0) = some q := by
  induction q with
  | nil => rfl
  | cons v q ih =>
    simp only [List.map_cons, base32Indices,
      (base32Index_getD v (h v (List.mem_cons_self _ _))).1,
      ih (fun x hx => h x (List.mem_cons_of_mem _ hx))]

theorem takeWhile_base32Chars (n : Nat) (q : List Nat) (h : ∀ v ∈ q, v < 32) :
    (base32Chars n q).takeWhile (fun c => c ≠ 61)
        = (q.take n).map (fun v => base32Alphabet.getD v 0)
      ∧ (base32Chars n q).dropWhile (fun c => c ≠ 61) = List.replicate (8 - n) 61 := by
  unfold base32Chars
  have hall : ∀ c ∈ (q.take n).map (fun v => base32Alphabet.getD v 0),
      (decide (c ≠ 61)) = true := by
    intro c hc
    simp only [List.mem_map] at hc
    obtain ⟨v, hv, rfl⟩ := hc
    simpa using (base32Index_getD v (h v (List.mem_of_mem_take hv))).2
  constructor
  · rw [List.takeWhile_append_of_pos hall]
    cases hk : 8 - n with
    | zero => simp
    | succ k => simp [List.replicate_succ]
  · rw [List.dropWhile_append_of_pos hall]
    cases hk : 8 - n with
    | zero => simp
    | succ k => simp [List.replicate_succ]

/-- Decoding the characters of an encoded quantum: the leading bytes of the
40-bit number spelled by the groups that were written. -/
theorem base32DecodeQuantum_chars (n : Nat) (q : List Nat) (h : ∀ v ∈ q, v < 32)
    (hlen : q.length = 8) (hn : n ∈ [2, 4, 5, 7, 8]) :
    base32DecodeQuantum (base32Chars n q)
      = some ((bytesBE 5 (((q.take n) ++ List.replicate (8 - n) 0).foldl
          (fun acc v => acc * 32 + v) 0)).take (n * 5 / 8)) := by
  obtain ⟨ht, hd⟩ := takeWhile_base32Chars n q h
  have hle : n ≤ 8 := by
    simp only [List.mem_cons, List.mem_singleton, List.not_mem_nil, or_false] at hn
    omega
  have hl : (q.take n).length = n := by simp [hlen, hle]
  unfold base32DecodeQuantum
  simp only [ht, hd, List.length_map, hl]
  rw [if_pos ⟨by simp, hn⟩, base32Indices_map _ (fun v hv => h v (List.mem_of_mem_take hv))]
  simp only [Option.map_some', hl]

theorem quantum_lt (b0 b1 b2 b3 b4 : Nat) (h0 : b0 < 256) :
    ∀ v ∈ [b0 / 8, b0 % 8 * 4 + b1 / 64, b1 / 2 % 32, b1 % 2 * 16 + b2 / 16,
         b2 % 16 * 2 + b3 / 128, b3 / 4 % 32, b3 % 4 * 8 + b4 / 32, b4 % 32],
      b1 < 256 → b2 < 256 → b3 < 256 → b4 < 256 → v < 32 := by
  intro v hv h1 h2 h3 h4
  simp only [List.mem_cons, List.mem_singleton, List.not_mem_nil, or_false] at hv
  rcases hv with rfl | rfl | rfl | rfl | rfl | rfl | rfl | rfl <;> omega

/-- Decoding the `n` leading characters of the encoding of a quantum of bytes
gives the leading bytes of the quantum. -/
theorem base32DecodeQuantum_encode (n : Nat) (b0 b1 b2 b3 b4 : Nat) (h0 : b0 < 256)
    (h1 : b1 < 256) (h2 : b2 < 256) (h3 : b3 < 256) (h4 : b4 < 256)
    (hn : n ∈ [2, 4, 5, 7, 8])
    (hz : (n < 4 → b1 = 0) ∧ (n < 5 → b2 = 0) ∧ (n < 7 → b3 = 0) ∧ (n < 8 → b4 = 0)) :
    base32DecodeQuantum (base32Chars n (base32Quantum b0 b1 b2 b3 b4))
      = some ([b0, b1, b2, b3, b4].take (n * 5 / 8)) := by
  rw [base32Quantum_eq b0 b1 b2 b3 b4 h1 h2 h3 h4,
    base32DecodeQuantum_chars n _
      (fun v hv => quantum_lt b0 b1 b2 b3 b4 h0 v hv h1 h2 h3 h4) rfl hn]
  simp only [List.mem_cons, List.mem_singleton, List.not_mem_nil, or_false] at hn
  obtain ⟨z1, z2, z3, z4⟩ := hz
  rcases hn with rfl | rfl | rfl | rfl | rfl
  · obtain rfl := z1 (by decide)
    obtain rfl := z2 (by decide)
    obtain rfl := z3 (by decide)
    obtain rfl := z4 (by decide)
    simp only [bytesBE, List.range, List.range.loop, List.map, List.take, List.replicate,
      List.cons_append, List.nil_append, List.foldl, Nat.shiftRight_eq_div_pow]
    congr 2
    omega
  · obtain rfl := z2 (by decide)
    obtain rfl := z3 (by decide)
    obtain rfl := z4 (by decide)
    simp only [bytesBE, List.range, List.range.loop, List.map, List.take, List.replicate,
      List.cons_append, List.nil_append, List.foldl, Nat.shiftRight_eq_div_pow]
    congr 2
    · omega
    · congr 1
      omega
  · obtain rfl := z3 (by decide)
    obtain rfl := z4 (by decide)
    simp only [bytesBE, List.range, List.range.loop, List.map, List.take, List.replicate,
      List.cons_append, List.nil_append, List.foldl, Nat.shiftRight_eq_div_pow]
    congr 2
    · omega
    · congr 1
      · omega
      · congr 1
        omega
  · obtain rfl := z4 (by decide)
    simp only [bytesBE, List.range, List.range.loop, List.map, List.take, List.replicate,
      List.cons_append, List.nil_append, List.foldl, Nat.shiftRight_eq_div_pow]
    congr 2
    · omega
    · congr 1
      · omega
      · congr 1
        · omega
        · congr 1
          omega
  · simp only [bytesBE, List.range, List.range.loop, List.map, List.take, List.replicate,
      List.cons_append, List.nil_append, List.foldl, Nat.shiftRight_eq_div_pow]
    congr 2
    · omega
    · congr 1
      · omega
      · congr 1
        · omega
        · congr 1
          · omega
          · congr 1
            omega

theorem base32Chars_padded (n : Nat) (q : List Nat) (hlen : q.length = 8) (hn : n ≤ 8) :
    ∃ c0 c1 c2 c3 c4 c5 c6 c7, base32Chars n q = [c0, c1, c2, c3, c4, c5, c6, c7] := by
  have hl : (base32Chars n q).length = 8 := by
    simp [base32Chars, hlen]
    omega
  match hc : base32Chars n q, hl with
  | [c0, c1, c2, c3, c4, c5, c6, c7], _ => exact ⟨_, _, _, _, _, _, _, _, rfl⟩

theorem base32Quantum_length (b0 b1 b2 b3 b4 : Nat) :
    (base32Quantum b0 b1 b2 b3 b4).length = 8 := rfl

/-- Decoding one encoded quantum followed by more encoded text. -/
theorem base32Decode_chars (n : Nat) (b0 b1 b2 b3 b4 : Nat) (tl : Bytes) (out : Bytes)
    (hn : n ≤ 8)
    (hq : base32DecodeQuantum (base32Chars n (base32Quantum b0 b1 b2 b3 b4)) = some out)
    (hlast : out.length < 5 → tl = []) :
    base32Decode (base32Chars n (base32Quantum b0 b1 b2 b3 b4) ++ tl)
      = (base32Decode tl).map fun r => out ++ r := by
  obtain ⟨c0, c1, c2, c3, c4, c5, c6, c7, hc⟩ :=
    base32Chars_padded n _ (base32Quantum_length b0 b1 b2 b3 b4) hn
  rw [hc] at hq ⊢
  simp only [List.cons_append, List.nil_append]
  rw [base32Decode, hq]
  simp only
  have hcond : ¬ (out.length < 5 ∧ tl ≠ []) := fun h => h.2 (hlast h.1)
  rw [if_neg hcond]

/-- Decoding the base32 encoding of a sequence of bytes gives it back. -/
theorem base32Decode_base32Encode : ∀ s : Bytes, isBytes s →
    base32Decode (base32Encode s) = some s
  | [], _ => rfl
  | [b0], h => by
    have h0 : b0 < 256 := h b0 (by simp)
    have hq := base32DecodeQuantum_encode 2 b0 0 0 0 0 h0 (by decide) (by decide) (by decide)
      (by decide) (by decide) (by simp)
    have := base32Decode_chars 2 b0 0 0 0 0 [] _ (by decide) hq (fun _ => rfl)
    rw [List.append_nil] at this
    rw [base32Encode, this]
    rfl
  | [b0, b1], h => by
    have h0 : b0 < 256 := h b0 (by simp)
    have h1 : b1 < 256 := h b1 (by simp)
    have hq := base32DecodeQuantum_encode 4 b0 b1 0 0 0 h0 h1 (by decide) (by decide)
      (by decide) (by decide) (by simp)
    have := base32Decode_chars 4 b0 b1 0 0 0 [] _ (by decide) hq (fun _ => rfl)
    rw [List.append_nil] at this
    rw [base32Encode, this]
    rfl
  | [b0, b1, b2], h => by
    have h0 : b0 < 256 := h b0 (by simp)
    have h1 : b1 < 256 := h b1 (by simp)
    have h2 : b2 < 256 := h b2 (by simp)
    have hq := base32DecodeQuantum_encode 5 b0 b1 b2 0 0 h0 h1 h2 (by decide)
      (by decide) (by decide) (by simp)
    have := base32Decode_chars 5 b0 b1 b2 0 0 [] _ (by decide) hq (fun _ => rfl)
    rw [List.append_nil] at this
    rw [base32Encode, this]
    rfl
  | [b0, b1, b2, b3], h => by
    have h0 : b0 < 256 := h b0 (by simp)
    have h1 : b1 < 256 := h b1 (by simp)
    have h2 : b2 < 256 := h b2 (by simp)
    have h3 : b3 < 256 := h b3 (by simp)
    have hq := base32DecodeQuantum_encode 7 b0 b1 b2 b3 0 h0 h1 h2 h3
      (by decide) (by decide) (by simp)
    have := base32Decode_chars 7 b0 b1 b2 b3 0 [] _ (by decide) hq (fun _ => rfl)
    rw [List.append_nil] at this
    rw [base32Encode, this]
    rfl
  | b0 :: b1 :: b2 :: b3 :: b4 :: rest, h => by
    have h0 : b0 < 256 := h b0 (by simp)
    have h1 : b1 < 256 := h b1 (by simp)
    have h2 : b2 < 256 := h b2 (by simp)
    have h3 : b3 < 256 := h b3 (by simp)
    have h4 : b4 < 256 := h b4 (by simp)
    have hr : isBytes rest := fun b hb => h b (by simp [hb])
    have hq := base32DecodeQuantum_encode 8 b0 b1 b2 b3 b4 h0 h1 h2 h3 h4
      (by decide) (by simp)
    have := base32Decode_chars 8 b0 b1 b2 b3 b4 (base32Encode rest) _ (by decide) hq
      (fun hlt => absurd hlt (by simp))
    rw [base32Encode, this, base32Decode_base32Encode rest hr]
    rfl

theorem natDec_all_digits (n : Nat) :
    (natDec n).all (fun c => decide (48 ≤ c ∧ c ≤ 57)) = true := by
  rw [List.all_eq_true]
  intro c hc
  simpa using natDec_digit n c hc

/-- Parsing the decimal rendering of a 64-bit integer gives it back. -/
theorem ParseInt_intDec (v : Int) (hv : isInt64 v) : ParseInt (intDec v) = some v := by
  unfold isInt64 at hv
  have hne : natDec v.natAbs ≠ [] := by
    intro h
    have := natDec_length_pos v.natAbs
    rw [h] at this
    simp at this
  by_cases hneg : v < 0
  · have hd : intDec v = 45 :: natDec v.natAbs := by simp [intDec, hneg]
    have hval : -((decValue (natDec v.natAbs) : Nat) : Int) = v := by
      rw [decValue_natDec]
      omega
    rw [hd]
    unfold ParseInt
    simp only [List.head?_cons, true_or, if_true, List.tail_cons, hne, natDec_all_digits,
      not_true_eq_false, or_self, if_false, hval]
    rw [if_pos hv]
  · have hd : intDec v = natDec v.natAbs := by simp [intDec, hneg]
    obtain ⟨c, tl, hc, h48, h57⟩ : ∃ c tl, natDec v.natAbs = c :: tl ∧ 48 ≤ c ∧ c ≤ 57 := by
      cases hl : natDec v.natAbs with
      | nil => exact absurd hl hne
      | cons c tl =>
        have := natDec_digit v.natAbs c (by rw [hl]; exact List.mem_cons_self _ _)
        exact ⟨c, tl, rfl, this.1, this.2⟩
    have hval : ((decValue (natDec v.natAbs) : Nat) : Int) = v := by
      rw [decValue_natDec]
      omega
    have hall := natDec_all_digits v.natAbs
    rw [hd]
    unfold ParseInt
    have e1 : (natDec v.natAbs).head? ≠ some 45 := by
      rw [hc]; simp; omega
    have e2 : (natDec v.natAbs).head? ≠ some 43 := by
      rw [hc]; simp; omega
    simp only [e1, e2, or_self, if_false, hne, hall, not_true_eq_false, hval]
    rw [if_pos hv]

theorem valuesOf_querySettings (secret : Bytes) (isHOTP : Bool) (issuer : Bytes)
    (algorithm : Algorithm) (digits counter period : Int) :
    valuesOf (querySettings secret isHOTP issuer algorithm digits counter period) (ascii "secret")
        = [base32Encode secret]
      ∧ valuesOf (querySettings secret isHOTP issuer algorithm digits counter period)
          (ascii "algorithm") = [algorithm]
      ∧ valuesOf (querySettings secret isHOTP issuer algorithm digits counter period)
          (ascii "digits") = [intDec digits]
      ∧ valuesOf (querySettings secret isHOTP issuer algorithm digits counter period)
          (ascii "period") = (if isHOTP then [] else [intDec period])
      ∧ valuesOf (querySettings secret isHOTP issuer algorithm digits counter period)
          (ascii "counter") = (if isHOTP then [intDec counter] else [])
      ∧ valuesOf (querySettings secret isHOTP issuer algorithm digits counter period)
          (ascii "issuer") = (if issuer ≠ [] then [issuer] else []) := by
  cases isHOTP <;> cases issuer <;> exact ⟨rfl, rfl, rfl, rfl, rfl, rfl⟩

theorem keys_querySettings (secret : Bytes) (isHOTP : Bool) (issuer : Bytes)
    (algorithm : Algorithm) (digits counter period : Int) :
    (querySettings secret isHOTP issuer algorithm digits counter period).map Prod.fst
      = [ascii "algorithm"] ++ (if isHOTP then [ascii "counter"] else [])
          ++ [ascii "digits"] ++ (if issuer ≠ [] then [ascii "issuer"] else [])
          ++ (if isHOTP then [] else [ascii "period"]) ++ [ascii "secret"] := by
  cases isHOTP <;> cases issuer <;> rfl

theorem QueryEscape_keys :
    QueryEscape (ascii "algorithm") = ascii "algorithm"
      ∧ QueryEscape (ascii "counter") = ascii "counter"
      ∧ QueryEscape (ascii "digits") = ascii "digits"
      ∧ QueryEscape (ascii "issuer") = ascii "issuer"
      ∧ QueryEscape (ascii "period") = ascii "period"
      ∧ QueryEscape (ascii "secret") = ascii "secret" := by
  decide

theorem shouldEscape_path_of_segment (c : Nat)
    (h : shouldEscape c encoding.encodePathSegment = false) :
    shouldEscape c encoding.encodePath = false := by
  unfold shouldEscape at h ⊢
  split_ifs at h ⊢ <;> simp_all

/-! ## The claims on the provisioning URI and on the primitives -/

/-- C11: URI round trip. For every configuration a Go program can hold and
both modes, the query a client reads from the URI of `SignURL` gives the
configured values back: the `secret` parameter base32-decodes to the secret,
the `algorithm` parameter is the algorithm string, the `digits` parameter
parses to the digit count, and `period` (TOTP) or `counter` (HOTP) parses to
the period or the counter. -/
theorem signURL_round_trip (c : common) (hc : c.wellTyped) :
    (valuesOf (queryOf (totp.SignURL { common := c })) (ascii "secret")).map base32Decode
        = [some c.secret]
      ∧ valuesOf (queryOf (totp.SignURL { common := c })) (ascii "algorithm") = [c.algorithm]
      ∧ (valuesOf (queryOf (totp.SignURL { common := c })) (ascii "digits")).map ParseInt
          = [some c.digits]
      ∧ (valuesOf (queryOf (totp.SignURL { common := c })) (ascii "period")).map ParseInt
          = [some c.period]
      ∧ (valuesOf (queryOf (hotp.SignURL { common := c })) (ascii "secret")).map base32Decode
          = [some c.secret]
      ∧ valuesOf (queryOf (hotp.SignURL { common := c })) (ascii "algorithm") = [c.algorithm]
      ∧ (valuesOf (queryOf (hotp.SignURL { common := c })) (ascii "digits")).map ParseInt
          = [some c.digits]
      ∧ (valuesOf (queryOf (hotp.SignURL { common := c })) (ascii "counter")).map ParseInt
          = [some c.counter] := by
  obtain ⟨hs, ha, hi, _, hd, hp, hk⟩ := hc
  have ht := queryOf_signURL c.secret false c.issuer c.label c.algorithm c.digits 0 c.period ha hi
  have hh := queryOf_signURL c.secret true c.issuer c.label c.algorithm c.digits c.counter 0 ha hi
  obtain ⟨t1, t2, t3, t4, _, _⟩ :=
    valuesOf_querySettings c.secret false c.issuer c.algorithm c.digits 0 c.period
  obtain ⟨h1, h2, h3, _, h5, _⟩ :=
    valuesOf_querySettings c.secret true c.issuer c.algorithm c.digits c.counter 0
  unfold totp.SignURL hotp.SignURL
  simp only [ht, hh, t1, t2, t3, t4, h1, h2, h3, h5, List.map_cons, List.map_nil, if_true,
    Bool.false_eq_true, if_false, base32Decode_base32Encode c.secret hs, ParseInt_intDec _ hd,
    ParseInt_intDec _ hp, ParseInt_intDec _ hk, and_self]

/-- C11 at a configuration with a 7-byte secret, an unlisted algorithm name,
an issuer and a label with reserved characters, and negative integers. -/
theorem signURL_round_trip_witness :
    (valuesOf (queryOf (totp.SignURL { common :=
          { secret := ascii "hello!!", algorithm := ascii "SHA 256&x=1", digits := -8,
            period := 30, counter := -5, issuer := ascii "Acme & Co",
            label := ascii "a b/c?d#e" } })) (ascii "secret")).map base32Decode
        = [some (ascii "hello!!")]
      ∧ valuesOf (queryOf (hotp.SignURL { common :=
          { secret := ascii "hello!!", algorithm := ascii "SHA 256&x=1", digits := -8,
            period := 30, counter := -5, issuer := ascii "Acme & Co",
            label := ascii "a b/c?d#e" } })) (ascii "algorithm") = [ascii "SHA 256&x=1"]
      ∧ (valuesOf (queryOf (hotp.SignURL { common :=
          { secret := ascii "hello!!", algorithm := ascii "SHA 256&x=1", digits := -8,
            period := 30, counter := -5, issuer := ascii "Acme & Co",
            label := ascii "a b/c?d#e" } })) (ascii "counter")).map ParseInt = [some (-5)] :=
  have h := signURL_round_trip
    { secret := ascii "hello!!", algorithm := ascii "SHA 256&x=1", digits := -8,
      period := 30, counter := -5, issuer := ascii "Acme & Co", label := ascii "a b/c?d#e" }
    (by unfold common.wellTyped isBytes isInt64; decide)
  ⟨h.1, h.2.2.2.2.2.1, h.2.2.2.2.2.2.2⟩

/-- C12 fails on the order of the parameters: `Values.Encode` writes the
settings sorted by key, so the query of the default HOTP generator with the
RFC 4226 secret starts with `algorithm` and ends with `secret`. -/
theorem signURL_query_not_secret_first :
    hotp.SignURL (NewHOTP [WithSecret (ascii "12345678901234567890")])
        = ascii "otpauth://hotp/user?algorithm=sha1&counter=0&digits=6&secret=GEZDGNBVGY3TQOJQGEZDGNBVGY3TQOJQ"
      ∧ hotp.SignURL (NewHOTP [WithSecret (ascii "12345678901234567890")])
        ≠ ascii "otpauth://hotp/user?secret=GEZDGNBVGY3TQOJQGEZDGNBVGY3TQOJQ&algorithm=sha1&digits=6&counter=0" := by
  decide!

/-- C12, amended: for every configuration the URI of `signURL` is exactly
`otpauth://`, the host `hotp` or `totp`, a path, then
`?algorithm=<name>[&counter=<n>]&digits=<n>[&issuer=<issuer>][&period=<n>]&secret=<base32>`:
the parameters in the order of their keys, `counter` for HOTP and `period` for
TOTP, `issuer` only when not empty, every value query-escaped. The path
depends on the label alone and holds no `?` and no `#`; for a non-empty label
without a character that needs escaping it is `/` and the label. How the path
escapes other labels is left open here. -/
theorem signURL_exact_form (label : Bytes) :
    ∃ path : Bytes, 63 ∉ path ∧ 35 ∉ path
      ∧ (label ≠ [] → (∀ c ∈ label, shouldEscape c encoding.encodePathSegment = false) →
          path = ascii "/" ++ label)
      ∧ ∀ (secret : Bytes) (isHOTP : Bool) (issuer : Bytes) (algorithm : Algorithm)
          (digits counter period : Int),
          signURL secret isHOTP issuer label algorithm digits counter period
            = ascii "otpauth://" ++ (if isHOTP then ascii "hotp" else ascii "totp")
                ++ path
                ++ ascii "?algorithm=" ++ QueryEscape algorithm
                ++ (if isHOTP then ascii "&counter=" ++ intDec counter else [])
                ++ ascii "&digits=" ++ intDec digits
                ++ (if issuer ≠ [] then ascii "&issuer=" ++ QueryEscape issuer else [])
                ++ (if isHOTP then [] else ascii "&period=" ++ intDec period)
                ++ ascii "&secret=" ++ QueryEscape (base32Encode secret) := by
  have hnot : ∀ x, x = 63 ∨ x = 35 →
      x ∉ (if label = [] then []
            else ascii "/" ++ escape (PathEscape label) encoding.encodePath) := by
    intro x hx hmem
    split at hmem
    · cases hmem
    · simp only [List.mem_append] at hmem
      rcases hmem with h | h
      · rcases hx with rfl | rfl <;> exact absurd h (by decide)
      · exact escapedPath_not_mem label x (by omega) h
  refine ⟨if label = [] then [] else ascii "/" ++ escape (PathEscape label) encoding.encodePath,
    hnot 63 (by simp), hnot 35 (by simp), ?_, ?_⟩
  · intro hne hkeep
    rw [if_neg hne]
    have e1 : PathEscape label = label := escape_id label _ hkeep
    have e2 : escape label encoding.encodePath = label :=
      escape_id label _ (fun c hc => shouldEscape_path_of_segment c (hkeep c hc))
    rw [e1, e2]
  · intro secret isHOTP issuer algorithm digits counter period
    obtain ⟨k1, k2, k3, k4, k5, k6⟩ := QueryEscape_keys
    have a1 : ascii "?algorithm=" = ascii "?" ++ (ascii "algorithm" ++ ascii "=") := by decide
    have a2 : ascii "&counter=" = ascii "&" ++ (ascii "counter" ++ ascii "=") := by decide
    have a3 : ascii "&digits=" = ascii "&" ++ (ascii "digits" ++ ascii "=") := by decide
    have a4 : ascii "&issuer=" = ascii "&" ++ (ascii "issuer" ++ ascii "=") := by decide
    have a5 : ascii "&period=" = ascii "&" ++ (ascii "period" ++ ascii "=") := by decide
    have a6 : ascii "&secret=" = ascii "&" ++ (ascii "secret" ++ ascii "=") := by decide
    rw [signURL_closed, a1, a2, a3, a4, a5, a6]
    cases isHOTP <;> by_cases hi : issuer = [] <;>
      simp [querySettings, hi, List.intercalate, List.intersperse, k1, k2, k3, k4, k5, k6,
        QueryEscape_intDec]

/-- C12, amended, at the label `user` and the HOTP configuration with the
RFC 4226 secret. -/
theorem signURL_exact_form_witness :
    ∃ path : Bytes, path = ascii "/" ++ ascii "user"
      ∧ signURL (ascii "12345678901234567890") true [] (ascii "user") (ascii "sha1") 6 0 0
          = ascii "otpauth://" ++ (if true then ascii "hotp" else ascii "totp")
              ++ path
              ++ ascii "?algorithm=" ++ QueryEscape (ascii "sha1")
              ++ (if true then ascii "&counter=" ++ intDec 0 else [])
              ++ ascii "&digits=" ++ intDec 6
              ++ (if ([] : Bytes) ≠ [] then ascii "&issuer=" ++ QueryEscape [] else [])
              ++ (if true then [] else ascii "&period=" ++ intDec 0)
              ++ ascii "&secret=" ++ QueryEscape (base32Encode (ascii "12345678901234567890")) :=
  match signURL_exact_form (ascii "user") with
  | ⟨path, _, _, hp, h⟩ =>
    ⟨path, hp (by decide) (by decide),
      h (ascii "12345678901234567890") true [] (ascii "sha1") 6 0 0⟩

/-- C13 fails on a label that needs escaping: for the label `a b` the path of
the URI is `a%2520b`, the label escaped twice (`PathEscape` gives `a%20b` and
`URL.String` escapes its `%` again); decoding the path once gives `a%20b`, not
the label. The host is `totp`. -/
theorem signURL_label_escaped_twice :
    totp.SignURL (NewTOTP [WithLabel (ascii "a b")])
        = ascii "otpauth://totp/a%2520b?algorithm=sha1&digits=6&period=30&secret="
      ∧ PathEscape (ascii "a b") = ascii "a%20b"
      ∧ PathUnescape (ascii "a%2520b") = some (ascii "a%20b")
      ∧ PathUnescape (ascii "a%2520b") ≠ some (ascii "a b") := by
  decide!

/-- C14: for every configuration a Go program can hold, the query of the URI
holds the keys `secret`, `algorithm` and `digits` exactly once each, the key
`issuer` exactly when the issuer is not empty, and for a TOTP generator the
key `period` and not `counter`, for an HOTP generator the key `counter` and
not `period`. -/
theorem signURL_query_keys (c : common) (hc : c.wellTyped) :
    ((queryOf (totp.SignURL { common := c })).map Prod.fst).count (ascii "secret") = 1
      ∧ ((queryOf (totp.SignURL { common := c })).map Prod.fst).count (ascii "algorithm") = 1
      ∧ ((queryOf (totp.SignURL { common := c })).map Prod.fst).count (ascii "digits") = 1
      ∧ (ascii "issuer" ∈ (queryOf (totp.SignURL { common := c })).map Prod.fst
          ↔ c.issuer ≠ [])
      ∧ ascii "period" ∈ (queryOf (totp.SignURL { common := c })).map Prod.fst
      ∧ ascii "counter" ∉ (queryOf (totp.SignURL { common := c })).map Prod.fst
      ∧ ((queryOf (hotp.SignURL { common := c })).map Prod.fst).count (ascii "secret") = 1
      ∧ ((queryOf (hotp.SignURL { common := c })).map Prod.fst).count (ascii "algorithm") = 1
      ∧ ((queryOf (hotp.SignURL { common := c })).map Prod.fst).count (ascii "digits") = 1
      ∧ (ascii "issuer" ∈ (queryOf (hotp.SignURL { common := c })).map Prod.fst
          ↔ c.issuer ≠ [])
      ∧ ascii "counter" ∈ (queryOf (hotp.SignURL { common := c })).map Prod.fst
      ∧ ascii "period" ∉ (queryOf (hotp.SignURL { common := c })).map Prod.fst := by
  obtain ⟨_, ha, hi, _, _, _, _⟩ := hc
  have ht := queryOf_signURL c.secret false c.issuer c.label c.algorithm c.digits 0 c.period ha hi
  have hh := queryOf_signURL c.secret true c.issuer c.label c.algorithm c.digits c.counter 0 ha hi
  unfold totp.SignURL hotp.SignURL
  rw [ht, hh, keys_querySettings, keys_querySettings]
  by_cases hiss : c.issuer = []
  · simp only [hiss, ne_eq, not_true_eq_false, if_false, if_true, Bool.false_eq_true,
      List.append_nil, List.nil_append, List.singleton_append, iff_false]
    decide
  · simp only [hiss, ne_eq, not_false_eq_true, if_false, if_true, Bool.false_eq_true,
      List.append_nil, List.nil_append, List.singleton_append, List.cons_append, iff_true]
    decide

/-- C14 at the default configuration with an issuer. -/
theorem signURL_query_keys_witness :
    ((queryOf (totp.SignURL (NewTOTP [WithIssuer (ascii "Acme")]))).map Prod.fst).count
        (ascii "secret") = 1
      ∧ (ascii "issuer" ∈ (queryOf (totp.SignURL (NewTOTP [WithIssuer (ascii "Acme")]))).map
          Prod.fst ↔ (NewTOTP [WithIssuer (ascii "Acme")]).common.issuer ≠ [])
      ∧ ascii "period" ∈ (queryOf (totp.SignURL (NewTOTP [WithIssuer (ascii "Acme")]))).map
          Prod.fst
      ∧ ascii "counter" ∉ (queryOf (totp.SignURL (NewTOTP [WithIssuer (ascii "Acme")]))).map
          Prod.fst :=
  have h := signURL_query_keys (NewTOTP [WithIssuer (ascii "Acme")]).common
    (by unfold common.wellTyped isBytes isInt64; decide)
  ⟨h.1, h.2.2.2.1, h.2.2.2.2.1, h.2.2.2.2.2.1⟩

/-- C15 fails on an algorithm value outside the three names: with the
algorithm `SHA256` in upper case the URI carries `algorithm=SHA256`, while
`SignPassword` falls back to SHA1 and returns the SHA1 code `287082`, not the
SHA256 code `247374` (secret `12345678901234567890`, clock reading 59). -/
theorem signURL_algorithm_not_the_hash_used :
    totp.SignURL (NewTOTP [WithSecret (ascii "12345678901234567890"),
        WithAlgorithm (ascii "SHA256")])
        = ascii "otpauth://totp/user?algorithm=SHA256&digits=6&period=30&secret=GEZDGNBVGY3TQOJQGEZDGNBVGY3TQOJQ"
      ∧ valuesOf (queryOf (totp.SignURL (NewTOTP [WithSecret (ascii "12345678901234567890"),
          WithAlgorithm (ascii "SHA256")]))) (ascii "algorithm") = [ascii "SHA256"]
      ∧ getHashFn (ascii "SHA256") = HashFn.sha1New
      ∧ totp.SignPassword (-2 ^ 63) (NewTOTP [WithSecret (ascii "12345678901234567890"),
          WithAlgorithm (ascii "SHA256")]) 59 = some (ascii "287082")
      ∧ totp.SignPassword (-2 ^ 63) (NewTOTP [WithSecret (ascii "12345678901234567890"),
          WithAlgorithm ALGORITHM_SHA1]) 59 = some (ascii "287082")
      ∧ totp.SignPassword (-2 ^ 63) (NewTOTP [WithSecret (ascii "12345678901234567890"),
          WithAlgorithm ALGORITHM_SHA256]) 59 = some (ascii "247374") := by
  decide!

/-- C16: the inactive mode field is ignored. Two HOTP generators that differ
only in `period` return the same code and the same URI; two TOTP generators
that differ only in `counter` return, at the same clock reading, the same code
and the same URI. -/
theorem inactive_mode_field_ignored (ovf : Int) (c : common) (p1 p2 k1 k2 now : Int) :
    hotp.SignPassword ovf { common := { c with period := p1 } }
        = hotp.SignPassword ovf { common := { c with period := p2 } }
      ∧ hotp.SignURL { common := { c with period := p1 } }
        = hotp.SignURL { common := { c with period := p2 } }
      ∧ totp.SignPassword ovf { common := { c with counter := k1 } } now
        = totp.SignPassword ovf { common := { c with counter := k2 } } now
      ∧ totp.SignURL { common := { c with counter := k1 } }
        = totp.SignURL { common := { c with counter := k2 } } :=
  ⟨rfl, rfl, rfl, rfl⟩

/-- C17: for every 64-bit signed integer `n`, `I2b n` is exactly 8 bytes, the
big-endian unsigned encoding of `n`: the sum of `b[i] * 256^(7-i)` is
`n mod 2^64`, which is `n` when `n ≥ 0` and `n + 2^64` when `n < 0`; so two
64-bit integers with the same serialisation are equal. -/
theorem I2b_big_endian (n m : Int) (hn : isInt64 n) (hm : isInt64 m) :
    (I2b n).length = 8
      ∧ (∀ b ∈ I2b n, b < 256)
      ∧ ((List.range 8).map (fun i => (I2b n).getD i 0 * 256 ^ (7 - i))).sum
          = (n % 2 ^ 64).toNat
      ∧ (0 ≤ n → ((n % 2 ^ 64).toNat : Int) = n)
      ∧ (n < 0 → ((n % 2 ^ 64).toNat : Int) = n + 2 ^ 64)
      ∧ (I2b n = I2b m → n = m) := by
  refine ⟨I2b_length n, I2b_lt n, I2b_sum n, ?_, ?_, I2b_injective n m hn hm⟩
  · intro h0
    unfold isInt64 at hn
    omega
  · intro h0
    unfold isInt64 at hn
    omega

/-- C17 at the counters -1 and 1. -/
theorem I2b_big_endian_witness :
    (I2b (-1)).length = 8
      ∧ (∀ b ∈ I2b (-1), b < 256)
      ∧ ((List.range 8).map (fun i => (I2b (-1)).getD i 0 * 256 ^ (7 - i))).sum
          = ((-1 : Int) % 2 ^ 64).toNat
      ∧ ((0 : Int) ≤ -1 → ((((-1 : Int) % 2 ^ 64).toNat : Nat) : Int) = -1)
      ∧ ((-1 : Int) < 0 → ((((-1 : Int) % 2 ^ 64).toNat : Nat) : Int) = -1 + 2 ^ 64)
      ∧ (I2b (-1) = I2b 1 → (-1 : Int) = 1) :=
  I2b_big_endian (-1) 1 (by unfold isInt64; decide) (by unfold isInt64; decide)

/-- C18: for every MAC (a sequence of bytes) and every offset whose four
indices lie inside it, the integer the dynamic-truncation step of
`generateOTP` produces is `(m0 AND 0x7F)*2^24 + m1*2^16 + m2*2^8 + m3` for the
MAC bytes `m0..m3` at `offset..offset+3`, and lies in `0 .. 2^31 - 1`. -/
theorem truncate_31_bit (mac : Bytes) (offset : Nat) (hb : isBytes mac)
    (h3 : offset + 3 < mac.length) :
    ∃ code : Nat, truncate mac offset = some code
      ∧ code = (mac.getD offset 0 &&& 0x7F) * 2 ^ 24 + mac.getD (offset + 1) 0 * 2 ^ 16
          + mac.getD (offset + 2) 0 * 2 ^ 8 + mac.getD (offset + 3) 0
      ∧ 0 ≤ (code : Int) ∧ code ≤ 2 ^ 31 - 1 := by
  refine ⟨_, truncate_value mac offset hb h3, rfl, Int.ofNat_nonneg _, ?_⟩
  have h0 : offset < mac.length := by omega
  have h1 : offset + 1 < mac.length := by omega
  have h2 : offset + 2 < mac.length := by omega
  have b1 : mac[offset + 1] < 256 := hb _ (List.getElem_mem _)
  have b2 : mac[offset + 2] < 256 := hb _ (List.getElem_mem _)
  have b3 : mac[offset + 3] < 256 := hb _ (List.getElem_mem _)
  rw [List.getD_eq_getElem _ _ h0, List.getD_eq_getElem _ _ h1, List.getD_eq_getElem _ _ h2,
    List.getD_eq_getElem _ _ h3, and_7f]
  omega

/-- C18 at a four-byte MAC of `0xFF` bytes and offset 0. -/
theorem truncate_31_bit_witness :
    ∃ code : Nat, truncate [255, 255, 255, 255] 0 = some code
      ∧ code = (([255, 255, 255, 255] : Bytes).getD 0 0 &&& 0x7F) * 2 ^ 24
          + ([255, 255, 255, 255] : Bytes).getD (0 + 1) 0 * 2 ^ 16
          + ([255, 255, 255, 255] : Bytes).getD (0 + 2) 0 * 2 ^ 8
          + ([255, 255, 255, 255] : Bytes).getD (0 + 3) 0
      ∧ 0 ≤ (code : Int) ∧ code ≤ 2 ^ 31 - 1 :=
  truncate_31_bit [255, 255, 255, 255] 0 (by unfold isBytes; decide) (by decide)

/-- C19: the byte indexing of `generateOTP` stays in bounds. For every secret,
algorithm, counter and digit count the HMAC `generateOTP` computes has 20, 32
or 64 bytes, its last byte exists, the offset computed from it is at most 15
and the four indices `offset .. offset+3` are below the length, so that
`generateOTP` reads its code there and panics on a zero modulus only; the
same index bounds hold for every MAC of at least 19 bytes. -/
theorem generateOTP_indices_in_bounds (ovf : Int) (secret : Bytes) (algorithm : Algorithm)
    (counter digits : Int) (mac : Bytes) (hlen : 19 ≤ mac.length) :
    ((hmacSum (getHashFn algorithm) secret (I2b counter)).length = 20
        ∨ (hmacSum (getHashFn algorithm) secret (I2b counter)).length = 32
        ∨ (hmacSum (getHashFn algorithm) secret (I2b counter)).length = 64)
      ∧ (∃ last code : Nat,
          (hmacSum (getHashFn algorithm) secret (I2b counter))[
              (hmacSum (getHashFn algorithm) secret (I2b counter)).length - 1]? = some last
            ∧ (last &&& 0xF) ≤ 15
            ∧ (last &&& 0xF) + 3 < (hmacSum (getHashFn algorithm) secret (I2b counter)).length
            ∧ truncate (hmacSum (getHashFn algorithm) secret (I2b counter))
                (last &&& 0xF) = some code
            ∧ generateOTP ovf secret algorithm counter digits
                = (remInt (code : Int) (pow10Int ovf digits)).map
                    (fun r => sprintfInt (sprintfWidthFormat digits) r))
      ∧ (generateOTP ovf secret algorithm counter digits = none ↔ pow10Int ovf digits = 0)
      ∧ ∃ last : Nat, mac[mac.length - 1]? = some last
          ∧ (last &&& 0xF) ≤ 15
          ∧ (last &&& 0xF) + 3 < mac.length
          ∧ ∃ code, truncate mac (last &&& 0xF) = some code := by
  have key : ∀ m : Bytes, 19 ≤ m.length →
      ∃ last : Nat, m[m.length - 1]? = some last ∧ (last &&& 0xF) ≤ 15
        ∧ (last &&& 0xF) + 3 < m.length ∧ ∃ code, truncate m (last &&& 0xF) = some code := by
    intro m hm
    have ho : (m.getLastD 0 &&& 0xF) ≤ 15 := by rw [and_f]; omega
    exact ⟨m.getLastD 0, getElem?_last m (by omega), ho, by omega,
      truncate_isSome m _ (by omega)⟩
  have hsz := hmacSum_length (getHashFn algorithm) secret (I2b counter)
  have hge := HashFn.size_ge (getHashFn algorithm)
  obtain ⟨last, hl, ho, hi, code, hc⟩ :=
    key (hmacSum (getHashFn algorithm) secret (I2b counter)) (by omega)
  have heq : generateOTP ovf secret algorithm counter digits
      = (remInt (code : Int) (pow10Int ovf digits)).map
          (fun r => sprintfInt (sprintfWidthFormat digits) r) := by
    unfold generateOTP
    simp only [hl, hc, Option.bind_eq_bind, Option.some_bind, Option.pure_def]
    cases remInt (code : Int) (pow10Int ovf digits) <;> rfl
  refine ⟨?_, ⟨last, code, hl, ho, hi, hc, heq⟩, ?_, key mac hlen⟩
  · rw [hsz]
    exact HashFn.size_cases _
  · rw [heq]
    unfold remInt
    by_cases hz : pow10Int ovf digits = 0 <;> simp [hz]

/-- C19 at the empty secret, an unlisted algorithm, the counter -1 and six
digits, and at a MAC of 19 zero bytes. -/
theorem generateOTP_indices_in_bounds_witness :
    ((hmacSum (getHashFn (ascii "md5")) [] (I2b (-1))).length = 20
        ∨ (hmacSum (getHashFn (ascii "md5")) [] (I2b (-1))).length = 32
        ∨ (hmacSum (getHashFn (ascii "md5")) [] (I2b (-1))).length = 64)
      ∧ (∃ last code : Nat,
          (hmacSum (getHashFn (ascii "md5")) [] (I2b (-1)))[
              (hmacSum (getHashFn (ascii "md5")) [] (I2b (-1))).length - 1]? = some last
            ∧ (last &&& 0xF) ≤ 15
            ∧ (last &&& 0xF) + 3 < (hmacSum (getHashFn (ascii "md5")) [] (I2b (-1))).length
            ∧ truncate (hmacSum (getHashFn (ascii "md5")) [] (I2b (-1)))
                (last &&& 0xF) = some code
            ∧ generateOTP (-2 ^ 63) [] (ascii "md5") (-1) 6
                = (remInt (code : Int) (pow10Int (-2 ^ 63) 6)).map
                    (fun r => sprintfInt (sprintfWidthFormat 6) r))
      ∧ (generateOTP (-2 ^ 63) [] (ascii "md5") (-1) 6 = none ↔ pow10Int (-2 ^ 63) 6 = 0)
      ∧ ∃ last : Nat,
          (List.replicate 19 0 : Bytes)[(List.replicate 19 0 : Bytes).length - 1]? = some last
          ∧ (last &&& 0xF) ≤ 15
          ∧ (last &&& 0xF) + 3 < (List.replicate 19 0 : Bytes).length
          ∧ ∃ code, truncate (List.replicate 19 0) (last &&& 0xF) = some code :=
  generateOTP_indices_in_bounds (-2 ^ 63) [] (ascii "md5") (-1) 6 (List.replicate 19 0)
    (by decide)

/-- C20: for every digit count `d` with `10 ≤ d ≤ 18` the modulus has no
effect: `generateOTP` returns the truncated integer `T` in decimal, left-padded
with `0` to exactly `d` characters; its value is `T`, at most 2147483647, its
first `d - 10` characters are `0` and the character at position `d - 10` is
`0`, `1` or `2`. -/
theorem generateOTP_ten_to_eighteen_digits (ovf : Int) (secret : Bytes) (algorithm : Algorithm)
    (counter digits : Int) (h10 : 10 ≤ digits) (h18 : digits ≤ 18) :
    ∃ s : Bytes, generateOTP ovf secret algorithm counter digits = some s
      ∧ s = zeroPad digits.toNat (natDec (specTruncation (specMac secret algorithm counter)))
      ∧ (s.length : Int) = digits
      ∧ decValue s = specTruncation (specMac secret algorithm counter)
      ∧ specTruncation (specMac secret algorithm counter) ≤ 2147483647
      ∧ (∀ i : Nat, i < digits.toNat - 10 → s[i]? = some 48)
      ∧ (s[digits.toNat - 10]? = some 48 ∨ s[digits.toNat - 10]? = some 49
          ∨ s[digits.toNat - 10]? = some 50) := by
  obtain ⟨r, _, hr, hg⟩ :=
    generateOTP_some ovf secret algorithm counter digits (by omega) (by omega)
  have hr18 := hr h18
  obtain ⟨n, rfl⟩ := Int.eq_ofNat_of_zero_le (show 0 ≤ digits by omega)
  have hT := specTruncation_lt (specMac secret algorithm counter)
  generalize specTruncation (specMac secret algorithm counter) = T at hr18 hT ⊢
  simp only [Int.toNat_ofNat] at hr18 ⊢
  have hpow : T < 10 ^ n :=
    calc T < 10 ^ 10 := by omega
      _ ≤ 10 ^ n := Nat.pow_le_pow_right (by decide) (by omega)
  rw [Nat.mod_eq_of_lt hpow] at hr18
  subst hr18
  rw [sprintf_zeroPad n (by omega) (by omega) r] at hg
  have hlen := natDec_length_le_ten r hT
  have hpos := natDec_length_pos r
  refine ⟨_, hg, rfl, ?_, decValue_zeroPad _ _, by omega, ?_, ?_⟩
  · rw [zeroPad_length n _ (by omega)]
  · intro i hi
    exact zeroPad_getElem?_zero _ _ i (by omega)
  · by_cases hl : (natDec r).length = 10
    · have hidx : n - 10 = n - (natDec r).length := by rw [hl]
      rw [hidx, zeroPad_getElem?_head n _ (by omega), natDec_head_value, hl]
      simp only [Option.some.injEq]
      norm_num
      omega
    · left
      exact zeroPad_getElem?_zero _ _ _ (by omega)

/-- C20 at twelve digits. -/
theorem generateOTP_ten_to_eighteen_digits_witness :
    ∃ s : Bytes, generateOTP 0 (ascii "12345678901234567890") ALGORITHM_SHA1 1 12 = some s
      ∧ s = zeroPad (12 : Int).toNat
          (natDec (specTruncation (specMac (ascii "12345678901234567890") ALGORITHM_SHA1 1)))
      ∧ (s.length : Int) = 12
      ∧ decValue s = specTruncation (specMac (ascii "12345678901234567890") ALGORITHM_SHA1 1)
      ∧ specTruncation (specMac (ascii "12345678901234567890") ALGORITHM_SHA1 1) ≤ 2147483647
      ∧ (∀ i : Nat, i < (12 : Int).toNat - 10 → s[i]? = some 48)
      ∧ (s[(12 : Int).toNat - 10]? = some 48 ∨ s[(12 : Int).toNat - 10]? = some 49
          ∨ s[(12 : Int).toNat - 10]? = some 50) :=
  generateOTP_ten_to_eighteen_digits 0 (ascii "12345678901234567890") ALGORITHM_SHA1 1 12
    (by decide) (by decide)

end Gotp
